import Mathlib

/-!
Verification of the XLS `DataflowSimplificationPass`
(`xls/passes/dataflow_simplification_pass.h`).

The development embeds the declarations present in the header
(`NodeSource`, `NodeSourceDataflowVisitor::DefaultHandler`,
`NodeSourceDataflowVisitor::JoinElements`) directly, and models the parts
of the repository that the header only declares (the IR node graph, the
`LeafTypeTree` shaped container, the generic dataflow engine of
`DataflowVisitor`, and the rewrite driver `RunOnFunctionBaseInternal`)
from the specification's description of them.
-/

namespace XlsDataflow

/-- IR types: a recursive shape — scalar bits, tuple of types, fixed-length
array (spec section 3, "Type"). -/
inductive Ty where
  | bits (w : Nat)
  | tup (ts : List Ty)
  | arr (t : Ty) (n : Nat)

mutual

/-- Boolean structural equality on types. -/
def Ty.beq : Ty → Ty → Bool
  | .bits w, .bits w' => w == w'
  | .tup ts, .tup ts' => Ty.beqList ts ts'
  | .arr t n, .arr t' n' => Ty.beq t t' && n == n'
  | _, _ => false

/-- Boolean structural equality on lists of types. -/
def Ty.beqList : List Ty → List Ty → Bool
  | [], [] => true
  | t :: r, t' :: r' => Ty.beq t t' && Ty.beqList r r'
  | _, _ => false

end

mutual

theorem tyBeq_iff : ∀ a b : Ty, Ty.beq a b = true ↔ a = b
  | .bits _, .bits _ => by simp [Ty.beq]
  | .tup ts, .tup ts' => by simp [Ty.beq, tyBeqList_iff ts ts']
  | .arr t _, .arr t' _ => by simp [Ty.beq, tyBeq_iff t t']
  | .bits _, .tup _ => by simp [Ty.beq]
  | .bits _, .arr _ _ => by simp [Ty.beq]
  | .tup _, .bits _ => by simp [Ty.beq]
  | .tup _, .arr _ _ => by simp [Ty.beq]
  | .arr _ _, .bits _ => by simp [Ty.beq]
  | .arr _ _, .tup _ => by simp [Ty.beq]

theorem tyBeqList_iff : ∀ a b : List Ty, Ty.beqList a b = true ↔ a = b
  | [], [] => by simp [Ty.beqList]
  | t :: r, t' :: r' => by
      simp [Ty.beqList, tyBeq_iff t t', tyBeqList_iff r r']
  | [], _ :: _ => by simp [Ty.beqList]
  | _ :: _, [] => by simp [Ty.beqList]

end

instance : DecidableEq Ty := fun a b => decidable_of_iff _ (tyBeq_iff a b)

mutual

/-- The list of structural paths of all scalar leaves of a type, in the
canonical depth-first left-to-right order (spec section 4.1, `leaves()`). -/
def Ty.leafPaths : Ty → List (List Nat)
  | .bits _ => [[]]
  | .tup ts => Ty.leafPathsList 0 ts
  | .arr t n => (List.range n).flatMap (fun i => (Ty.leafPaths t).map (fun p => i :: p))

/-- Leaf paths of the fields of a tuple type starting at field index `i`. -/
def Ty.leafPathsList : Nat → List Ty → List (List Nat)
  | _, [] => []
  | i, t :: rest => (Ty.leafPaths t).map (fun p => i :: p) ++ Ty.leafPathsList (i + 1) rest

end

/-- One navigation step into a type: field `i` of a tuple, element `i` of an
array (in range). -/
def Ty.child : Ty → Nat → Option Ty
  | .bits _, _ => none
  | .tup ts, i => ts[i]?
  | .arr t n, i => if i < n then some t else none

/-- The sub-shape of a type at a structural path prefix
(spec section 4.1, `subtree(prefix)` on shapes). -/
def Ty.subtreeTy : List Nat → Ty → Option Ty
  | [], t => some t
  | i :: p, t => (t.child i).bind (Ty.subtreeTy p)

/-- IR values: scalar bit values, tuples, arrays (shaped like `Ty`). -/
inductive Value where
  | bits (v : Nat)
  | tup (vs : List Value)
  | arr (vs : List Value)

mutual

/-- Boolean structural equality on values. -/
def Value.beq : Value → Value → Bool
  | .bits v, .bits v' => v == v'
  | .tup vs, .tup vs' => Value.beqList vs vs'
  | .arr vs, .arr vs' => Value.beqList vs vs'
  | _, _ => false

/-- Boolean structural equality on lists of values. -/
def Value.beqList : List Value → List Value → Bool
  | [], [] => true
  | v :: r, v' :: r' => Value.beq v v' && Value.beqList r r'
  | _, _ => false

end

mutual

theorem valBeq_iff : ∀ a b : Value, Value.beq a b = true ↔ a = b
  | .bits _, .bits _ => by simp [Value.beq]
  | .tup vs, .tup vs' => by simp [Value.beq, valBeqList_iff vs vs']
  | .arr vs, .arr vs' => by simp [Value.beq, valBeqList_iff vs vs']
  | .bits _, .tup _ => by simp [Value.beq]
  | .bits _, .arr _ => by simp [Value.beq]
  | .tup _, .bits _ => by simp [Value.beq]
  | .tup _, .arr _ => by simp [Value.beq]
  | .arr _, .bits _ => by simp [Value.beq]
  | .arr _, .tup _ => by simp [Value.beq]

theorem valBeqList_iff : ∀ a b : List Value, Value.beqList a b = true ↔ a = b
  | [], [] => by simp [Value.beqList]
  | v :: r, v' :: r' => by
      simp [Value.beqList, valBeq_iff v v', valBeqList_iff r r']
  | [], _ :: _ => by simp [Value.beqList]
  | _ :: _, [] => by simp [Value.beqList]

end

instance : DecidableEq Value := fun a b => decidable_of_iff _ (valBeq_iff a b)

mutual

/-- Typing of values: a value inhabits a type when it mirrors its shape and
every scalar fits its width. -/
def Value.hasTy : Value → Ty → Bool
  | .bits v, .bits w => v < 2 ^ w
  | .tup vs, .tup ts => Value.hasTyList vs ts
  | .arr vs, .arr t n => vs.length == n && Value.hasTyAll vs t
  | _, _ => false

/-- Pointwise typing of tuple fields. -/
def Value.hasTyList : List Value → List Ty → Bool
  | [], [] => true
  | v :: r, t :: ts => Value.hasTy v t && Value.hasTyList r ts
  | _, _ => false

/-- Uniform typing of array elements. -/
def Value.hasTyAll : List Value → Ty → Bool
  | [], _ => true
  | v :: r, t => Value.hasTy v t && Value.hasTyAll r t

end

/-- One navigation step into a value. -/
def Value.child : Value → Nat → Option Value
  | .bits _, _ => none
  | .tup vs, i => vs[i]?
  | .arr vs, i => vs[i]?

/-- The sub-value at a structural path (all steps must be in range). -/
def Value.sub : List Nat → Value → Option Value
  | [], v => some v
  | i :: p, v => (v.child i).bind (Value.sub p)

/-- `NodeSource`: the provenance lattice value — the pair of an origin node
(identified here by its id, modelling the non-owning `Node*`) and a
structural path (`tree_index_`) into the origin's own output
(`dataflow_simplification_pass.h`, class `NodeSource`). -/
structure NodeSource where
  node : Nat
  tree_index : List Nat
deriving DecidableEq

/-- Memberwise boolean equality, modelling the defaulted
`operator==(const NodeSource&, const NodeSource&)` of the source, which
compares the `node_` pointer and the `tree_index_` vector memberwise. -/
def NodeSource.beq (a b : NodeSource) : Bool :=
  a.node == b.node && a.tree_index == b.tree_index

instance : BEq NodeSource := ⟨NodeSource.beq⟩

/-- Join strings with a separator — models `absl::StrJoin`. -/
def strJoin (sep : String) : List String → String
  | [] => ""
  | [s] => s
  | s :: rest => s ++ sep ++ strJoin sep rest

/-- `NodeSource::ToString`: the origin's name when the path is empty,
otherwise the name followed by the comma-joined path in braces
(`absl::StrFormat("%s{%s}", ..., absl::StrJoin(tree_index(), ","))`).
The `getName` argument models `node()->GetName()`. -/
def NodeSource.render (getName : Nat → String) (s : NodeSource) : String :=
  if s.tree_index.isEmpty then getName s.node
  else
    getName s.node ++ "\x7b" ++
      strJoin "," (s.tree_index.map toString) ++ "\x7d"

/-- `LeafTypeTree`: a container holding one value per scalar leaf of a
structured type. Modelled from the spec: the real `LeafTypeTree` class of
the repository is not part of the given source; spec section 4.1 describes
it as a tree isomorphic to a `Ty`'s shape with one payload per leaf. -/
inductive LeafTypeTree (α : Type) where
  | leaf (a : α)
  | tup (ts : List (LeafTypeTree α))
  | arr (ts : List (LeafTypeTree α))

mutual

/-- Boolean structural equality on leaf-type trees. -/
def LeafTypeTree.beq [DecidableEq α] : LeafTypeTree α → LeafTypeTree α → Bool
  | .leaf a, .leaf b => a = b
  | .tup ts, .tup ts' => LeafTypeTree.beqList ts ts'
  | .arr ts, .arr ts' => LeafTypeTree.beqList ts ts'
  | _, _ => false

/-- Boolean structural equality on lists of leaf-type trees. -/
def LeafTypeTree.beqList [DecidableEq α] :
    List (LeafTypeTree α) → List (LeafTypeTree α) → Bool
  | [], [] => true
  | t :: r, t' :: r' => LeafTypeTree.beq t t' && LeafTypeTree.beqList r r'
  | _, _ => false

end

mutual

theorem lttBeq_iff [DecidableEq α] :
    ∀ a b : LeafTypeTree α, LeafTypeTree.beq a b = true ↔ a = b
  | .leaf _, .leaf _ => by simp [LeafTypeTree.beq]
  | .tup ts, .tup ts' => by simp [LeafTypeTree.beq, lttBeqList_iff ts ts']
  | .arr ts, .arr ts' => by simp [LeafTypeTree.beq, lttBeqList_iff ts ts']
  | .leaf _, .tup _ => by simp [LeafTypeTree.beq]
  | .leaf _, .arr _ => by simp [LeafTypeTree.beq]
  | .tup _, .leaf _ => by simp [LeafTypeTree.beq]
  | .tup _, .arr _ => by simp [LeafTypeTree.beq]
  | .arr _, .leaf _ => by simp [LeafTypeTree.beq]
  | .arr _, .tup _ => by simp [LeafTypeTree.beq]

theorem lttBeqList_iff [DecidableEq α] :
    ∀ a b : List (LeafTypeTree α), LeafTypeTree.beqList a b = true ↔ a = b
  | [], [] => by simp [LeafTypeTree.beqList]
  | t :: r, t' :: r' => by
      simp [LeafTypeTree.beqList, lttBeq_iff t t',
        lttBeqList_iff r r']
  | [], _ :: _ => by simp [LeafTypeTree.beqList]
  | _ :: _, [] => by simp [LeafTypeTree.beqList]

end

instance [DecidableEq α] : DecidableEq (LeafTypeTree α) :=
  fun a b => decidable_of_iff _ (lttBeq_iff a b)

mutual

/-- The default-constructed container over a type's shape, every leaf holding
the given default payload — models `LeafTypeTree<NodeSource> result(node->GetType())`. -/
def LeafTypeTree.ofTy (dflt : α) : Ty → LeafTypeTree α
  | .bits _ => .leaf dflt
  | .tup ts => .tup (LeafTypeTree.ofTyList dflt ts)
  | .arr t n => .arr (List.replicate n (LeafTypeTree.ofTy dflt t))

/-- Default-constructed containers for a list of tuple field types. -/
def LeafTypeTree.ofTyList (dflt : α) : List Ty → List (LeafTypeTree α)
  | [] => []
  | t :: rest => LeafTypeTree.ofTy dflt t :: LeafTypeTree.ofTyList dflt rest

end

mutual

/-- Rewrite every leaf as a function of its own structural path and previous
payload — models `leaf_type_tree::ForEachIndex` with a mutating body. -/
def LeafTypeTree.mapWithPath (f : List Nat → α → α) : LeafTypeTree α → LeafTypeTree α
  | .leaf a => .leaf (f [] a)
  | .tup ts => .tup (LeafTypeTree.mapWithPathList f 0 ts)
  | .arr ts => .arr (LeafTypeTree.mapWithPathList f 0 ts)

/-- `mapWithPath` over the children starting at child index `i`. -/
def LeafTypeTree.mapWithPathList (f : List Nat → α → α) :
    Nat → List (LeafTypeTree α) → List (LeafTypeTree α)
  | _, [] => []
  | i, t :: rest =>
      LeafTypeTree.mapWithPath (fun p a => f (i :: p) a) t ::
        LeafTypeTree.mapWithPathList f (i + 1) rest

end

/-- One navigation step into a container. -/
def LeafTypeTree.child : LeafTypeTree α → Nat → Option (LeafTypeTree α)
  | .leaf _, _ => none
  | .tup ts, i => ts[i]?
  | .arr ts, i => ts[i]?

/-- The payload at a structural leaf path (spec section 4.1, `at(path)`). -/
def LeafTypeTree.get : List Nat → LeafTypeTree α → Option α
  | [], .leaf a => some a
  | [], _ => none
  | i :: p, t => (t.child i).bind (LeafTypeTree.get p)

/-- `NodeSourceDataflowVisitor::DefaultHandler`: build a container over the
node's output type (`nodeTy`) and set each leaf at path `index` to
`NodeSource(node, index)` via `ForEachIndex`; `nodeId` models the `Node*`
argument and `nodeTy` its `GetType()`. The default payload models the
default-constructed `NodeSource()` leaves before `ForEachIndex` runs. -/
def defaultHandler (nodeId : Nat) (nodeTy : Ty) : LeafTypeTree NodeSource :=
  (LeafTypeTree.ofTy ⟨0, []⟩ nodeTy).mapWithPath
    (fun index _ => ⟨nodeId, index⟩)

/-- The core of `NodeSourceDataflowVisitor::JoinElements` on the list of leaf
candidates: if every candidate equals the front one, return the front one,
otherwise return the fresh self-describing `NodeSource(node, index)`.
`none` models the undefined `data_sources.front()` on an empty span. -/
def NodeSource.joinList (dataSources : List NodeSource) (node : Nat)
    (index : List Nat) : Option NodeSource :=
  match dataSources with
  | [] => none
  | d :: _ =>
      if dataSources.all (fun s => s = d) then some d
      else some ⟨node, index⟩

/-- `NodeSourceDataflowVisitor::JoinElements` with its full signature:
`element_type`, the leaf candidates `data_sources`, the `control_sources`
containers, the joining node and the leaf's `index`. -/
def joinElements (elementTy : Ty) (dataSources : List NodeSource)
    (controlSources : List (LeafTypeTree NodeSource)) (node : Nat)
    (index : List Nat) : Option NodeSource :=
  NodeSource.joinList dataSources node index

/-- Node kinds. Modelled from the spec: section 3 "Node" lists the closed
set of kinds the pass distinguishes (parameter, literal, identity
passthrough, tuple-construct, tuple-index, array-construct, array-index,
array-update, select, other/opaque). `chainIndex base q` models a freshly
inserted tuple-index / array-index chain reconstructing the path `q` from
`base` (spec section 4.4); operands are node ids. -/
inductive Op where
  | param
  | literalOp (v : Value)
  | identityOp (x : Nat)
  | tupleOp (xs : List Nat)
  | tupleIndex (x : Nat) (i : Nat)
  | arrayOp (xs : List Nat)
  | arrayIndex (x : Nat) (ix : Nat)
  | arrayUpdate (x : Nat) (v : Nat) (ix : Nat)
  | selectOp (sel : Nat) (cases : List Nat)
  | chainIndex (x : Nat) (q : List Nat)
  | otherOp (xs : List Nat)
deriving DecidableEq

/-- The ordered operand id list of an op. -/
def Op.operands : Op → List Nat
  | .param => []
  | .literalOp _ => []
  | .identityOp x => [x]
  | .tupleOp xs => xs
  | .tupleIndex x _ => [x]
  | .arrayOp xs => xs
  | .arrayIndex x ix => [x, ix]
  | .arrayUpdate x v ix => [x, v, ix]
  | .selectOp sel cases => sel :: cases
  | .chainIndex x _ => [x]
  | .otherOp xs => xs

/-- A graph node: id, diagnostic name, declared output type, operation.
Modelled from the spec: section 3 "Node". -/
structure Node where
  id : Nat
  name : String
  ty : Ty
  op : Op
deriving DecidableEq

/-- A function body: the node list (in topological order, operands before
users) and the id of the return node. Modelled from the spec: section 6
"function-body graph". -/
structure Func where
  nodes : List Node
  ret : Nat
deriving DecidableEq

/-- Find the node with a given id. -/
def findNode (g : List Node) (x : Nat) : Option Node :=
  g.find? (fun n => n.id = x)

/-- The declared type of the node with a given id. -/
def tyOf (g : List Node) (x : Nat) : Option Ty :=
  (findNode g x).map Node.ty

/-- Well-formedness: node ids are distinct and every operand of a node
refers to an earlier node of the list (the graph is acyclic and
topologically ordered, spec section 3). -/
def wfAux : List Nat → List Node → Bool
  | _, [] => true
  | seen, n :: rest =>
      n.op.operands.all (fun x => seen.contains x) &&
        !seen.contains n.id && wfAux (n.id :: seen) rest

/-- Well-formedness of a whole node list. -/
def wf (g : List Node) : Bool := wfAux [] g

/-! ### Evaluation semantics

Modelled from the spec: the spec (sections 1 and 8) speaks of "the function
computed by the graph" under "valuations of parameters"; the concrete node
semantics follow the XLS IR conventions the spec's rewrites rely on:
tuple/array construction and projection, `select` picking the case given by
the selector (clamped to the last case), `array_index` clamped to the last
element, `array_update` a no-op when the index is out of bounds. Opaque
"other" nodes take their value from an uninterpreted per-node function of
the operand values (`oracle`). -/

/-- Association-list lookup of an evaluated node value. -/
def lookupVal (vals : List (Nat × Value)) (x : Nat) : Option Value :=
  (vals.find? (fun e => e.1 = x)).map Prod.snd

/-- Evaluate one node given a lookup for the values of earlier nodes, the
parameter valuation `env` and the uninterpreted semantics `oracle` of
opaque nodes. -/
def evalOp (look : Nat → Option Value) (env : Nat → Value)
    (oracle : Nat → List Value → Value) (n : Node) : Option Value :=
  match n.op with
  | .param => some (env n.id)
  | .literalOp v => some v
  | .identityOp x => look x
  | .tupleOp xs => (xs.mapM look).map Value.tup
  | .tupleIndex x i =>
      (look x).bind (fun v =>
        match v with
        | .tup vs => vs[i]?
        | _ => none)
  | .arrayOp xs => (xs.mapM look).map Value.arr
  | .arrayIndex x ix =>
      (look x).bind (fun v =>
        (look ix).bind (fun iv =>
          match v, iv with
          | .arr vs, .bits k => vs[min k (vs.length - 1)]?
          | _, _ => none))
  | .arrayUpdate x v ix =>
      (look x).bind (fun base =>
        (look v).bind (fun newv =>
          (look ix).bind (fun iv =>
            match base, iv with
            | .arr vs, .bits k =>
                some (.arr (if k < vs.length then vs.set k newv else vs))
            | _, _ => none)))
  | .selectOp sel cases =>
      (look sel).bind (fun sv =>
        (cases.mapM look).bind (fun cvs =>
          match sv with
          | .bits k => cvs[min k (cvs.length - 1)]?
          | _ => none))
  | .chainIndex x q => (look x).bind (Value.sub q)
  | .otherOp xs => (xs.mapM look).map (oracle n.id)

/-- Evaluate one node and check the result against the node's declared
type; ill-typed results are dropped (the IR guarantees type-correct
evaluation, so a `none` here marks a malformed graph). -/
def evalNode (look : Nat → Option Value) (env : Nat → Value)
    (oracle : Nat → List Value → Value) (n : Node) : Option Value :=
  (evalOp look env oracle n).bind (fun v =>
    if v.hasTy n.ty then some v else none)

/-- Evaluate a node list in order, accumulating an id-to-value map; nodes
that fail to evaluate are skipped (and so are their users). -/
def evalList (env : Nat → Value) (oracle : Nat → List Value → Value) :
    List Node → List (Nat × Value) → List (Nat × Value)
  | [], acc => acc
  | n :: rest, acc =>
      match evalNode (lookupVal acc) env oracle n with
      | some v => evalList env oracle rest (acc ++ [(n.id, v)])
      | none => evalList env oracle rest acc

/-- The function computed by a function body: the value of its return node
under a parameter valuation (spec sections 1 and 8). -/
def funcEval (f : Func) (env : Nat → Value)
    (oracle : Nat → List Value → Value) : Option Value :=
  lookupVal (evalList env oracle f.nodes []) f.ret

/-! ### Phase 1 — the dataflow propagation engine

Modelled from the spec: the generic engine (`DataflowVisitor`, in
`dataflow_visitor.h`) is not part of the given source. Spec section 4.2
describes it: one sweep in topological order, one shaped container of
`NodeSource` per node, dispatch by node kind, shape mismatches are fatal
invariant violations. A node's container is represented by its leaf-level
contents: the association list from each structural leaf path of the node's
output type to the `NodeSource` at that leaf. -/

/-- A node's computed container: leaf path to provenance value, covering
exactly the leaf paths of the node's output type, in canonical order. -/
def Cont : Type := List (List Nat × NodeSource)

instance : DecidableEq Cont := inferInstanceAs (DecidableEq (List _))

/-- The provenance value at one leaf path of a container. -/
def contGet (c : Cont) (p : List Nat) : Option NodeSource :=
  (c.find? (fun e => e.1 = p)).map Prod.snd

/-- The memoized container of a node, if already computed. -/
def memoGet (memo : List (Nat × Cont)) (x : Nat) : Option Cont :=
  (memo.find? (fun e => e.1 = x)).map Prod.snd

/-- Build container entries over a list of leaf paths from a per-leaf
function; a `none` leaf is a shape-mismatch invariant violation
(spec section 4.2, "Failure"). -/
def buildContList (f : List Nat → Option NodeSource) :
    List (List Nat) → Except String Cont
  | [] => Except.ok []
  | p :: rest =>
      match f p with
      | some s =>
          match buildContList f rest with
          | Except.ok c => Except.ok ((p, s) :: c)
          | Except.error e => Except.error e
      | none => Except.error "shape mismatch"

/-- Build a container over a type's leaf paths from a per-leaf function. -/
def buildCont (ty : Ty) (f : List Nat → Option NodeSource) : Except String Cont :=
  buildContList f ty.leafPaths

/-- The static literal index of an operand node, when its op is a scalar
literal — models the host's static-literal-index introspection
(spec section 6). -/
def litIndex (g : List Node) (ix : Nat) : Option Nat :=
  match findNode g ix with
  | some nx =>
      match nx.op with
      | .literalOp (.bits k) => some k
      | _ => none
  | none => none

/-- Declared-type consistency of one node with its operands — a failed
check is a fatal invariant violation (spec sections 4.2 and 7). -/
def typeOk (g : List Node) (n : Node) : Bool :=
  match n.op with
  | .param => true
  | .literalOp v => v.hasTy n.ty
  | .identityOp x => tyOf g x == some n.ty
  | .tupleOp xs =>
      match n.ty with
      | .tup ts => xs.mapM (tyOf g) == some ts
      | _ => false
  | .tupleIndex x i =>
      match tyOf g x with
      | some (.tup ts) => ts[i]? == some n.ty
      | _ => false
  | .arrayOp xs =>
      match n.ty with
      | .arr t k => xs.length == k && xs.all (fun x => tyOf g x == some t)
      | _ => false
  | .arrayIndex x ix =>
      match tyOf g x, tyOf g ix with
      | some (.arr t k), some (.bits _) => t == n.ty && 1 ≤ k
      | _, _ => false
  | .arrayUpdate x v ix =>
      match tyOf g x, tyOf g v, tyOf g ix with
      | some (.arr t k), some tv, some (.bits _) =>
          (Ty.arr t k == n.ty) && tv == t
      | _, _, _ => false
  | .selectOp sel cases =>
      match tyOf g sel with
      | some (.bits _) =>
          !cases.isEmpty && cases.all (fun c => tyOf g c == some n.ty)
      | _ => false
  | .chainIndex x q =>
      match tyOf g x with
      | some tx => Ty.subtreeTy q tx == some n.ty
      | none => false
  | .otherOp _ => true

/-- The declared element count of an array-typed node. -/
def arrLenOf (g : List Node) (x : Nat) : Nat :=
  match tyOf g x with
  | some (.arr _ k) => k
  | _ => 0

/-- Compute one node's container from its operands' memoized containers —
the engine's per-kind dispatch (spec section 4.2): self-describing default
production for parameters, literals and opaque nodes; verbatim copy for
identity; concatenation for tuple/array construction; subtree extraction
for tuple-index and statically known array-index; join across all elements
for unknown array-index; per-slot join of base and value for unknown
array-update; join across the cases for select. -/
def analyzeNode (g : List Node) (memo : List (Nat × Cont)) (n : Node) :
    Except String Cont :=
  if !typeOk g n then Except.error "type mismatch" else
  match n.op with
  | .param => buildCont n.ty (fun p => some ⟨n.id, p⟩)
  | .literalOp _ => buildCont n.ty (fun p => some ⟨n.id, p⟩)
  | .otherOp _ => buildCont n.ty (fun p => some ⟨n.id, p⟩)
  | .identityOp x =>
      match memoGet memo x with
      | some c => buildCont n.ty (fun p => contGet c p)
      | none => Except.error "missing operand"
  | .tupleOp xs =>
      match xs.mapM (memoGet memo) with
      | some cs =>
          buildCont n.ty (fun p =>
            match p with
            | [] => none
            | i :: q => cs[i]?.bind (fun c => contGet c q))
      | none => Except.error "missing operand"
  | .tupleIndex x i =>
      match memoGet memo x with
      | some c => buildCont n.ty (fun p => contGet c (i :: p))
      | none => Except.error "missing operand"
  | .arrayOp xs =>
      match xs.mapM (memoGet memo) with
      | some cs =>
          buildCont n.ty (fun p =>
            match p with
            | [] => none
            | i :: q => cs[i]?.bind (fun c => contGet c q))
      | none => Except.error "missing operand"
  | .arrayIndex x ix =>
      match memoGet memo x with
      | some c =>
          let len := arrLenOf g x
          match litIndex g ix with
          | some k =>
              if k < len then buildCont n.ty (fun p => contGet c (k :: p))
              else
                buildCont n.ty (fun p =>
                  if len = 0 then some ⟨n.id, p⟩
                  else
                    ((List.range len).mapM (fun j => contGet c (j :: p))).bind
                      (fun cands => NodeSource.joinList cands n.id p))
          | none =>
              buildCont n.ty (fun p =>
                if len = 0 then some ⟨n.id, p⟩
                else
                  ((List.range len).mapM (fun j => contGet c (j :: p))).bind
                    (fun cands => NodeSource.joinList cands n.id p))
      | none => Except.error "missing operand"
  | .arrayUpdate x v ix =>
      match memoGet memo x, memoGet memo v with
      | some cb, some cv =>
          let len := arrLenOf g x
          match litIndex g ix with
          | some k =>
              if k < len then
                buildCont n.ty (fun p =>
                  match p with
                  | [] => none
                  | j :: q => if j = k then contGet cv q else contGet cb (j :: q))
              else
                buildCont n.ty (fun p =>
                  match p with
                  | [] => none
                  | j :: q =>
                      (contGet cb (j :: q)).bind (fun b =>
                        (contGet cv q).bind (fun vl =>
                          NodeSource.joinList [b, vl] n.id (j :: q))))
          | none =>
              buildCont n.ty (fun p =>
                match p with
                | [] => none
                | j :: q =>
                    (contGet cb (j :: q)).bind (fun b =>
                      (contGet cv q).bind (fun vl =>
                        NodeSource.joinList [b, vl] n.id (j :: q))))
      | _, _ => Except.error "missing operand"
  | .selectOp _ cases =>
      match cases.mapM (memoGet memo) with
      | some cs =>
          buildCont n.ty (fun p =>
            (cs.mapM (fun c => contGet c p)).bind
              (fun cands => NodeSource.joinList cands n.id p))
      | none => Except.error "missing operand"
  | .chainIndex x q =>
      match memoGet memo x with
      | some c => buildCont n.ty (fun p => contGet c (q ++ p))
      | none => Except.error "missing operand"

/-- The engine sweep over the remaining nodes, extending the memo — phase 1
of the pass; read-only with respect to the graph (spec section 4.4). -/
def analyzeList (g : List Node) :
    List Node → List (Nat × Cont) → Except String (List (Nat × Cont))
  | [], memo => Except.ok memo
  | n :: rest, memo =>
      match analyzeNode g memo n with
      | Except.ok c => analyzeList g rest (memo ++ [(n.id, c)])
      | Except.error e => Except.error e

/-- Phase 1: one engine sweep over a whole node list. -/
def analyze (g : List Node) : Except String (List (Nat × Cont)) :=
  analyzeList g g []

/-! ### Phase 2 — the rewrite driver

Modelled from the spec: `RunOnFunctionBaseInternal` is only declared in the
given source; spec section 4.4 describes the driver. Per node `N`, in
order, with the memo computed by phase 1 on the original graph: if every
leaf of `N`'s container is `NodeSource(M, prefixPath ++ p)` for one other
node `M` and one fixed `prefixPath`, and the shapes match, all uses of `N`
are redirected to `M` itself (empty prefixPath) or to a freshly inserted
index chain reconstructing `prefixPath` from `M`, and `N`, now without
uses, is detached. A node that already is exactly that index chain is left
unchanged (otherwise the rewrite would re-create it, contradicting the
spec's fixed-point requirement in sections 4.4 and 8). -/

/-- Strip a known suffix: `dropSuffixQ q p = some pre` exactly when
`q = pre ++ p`. -/
def dropSuffixQ (q p : List Nat) : Option (List Nat) :=
  if p.length ≤ q.length && q.drop (q.length - p.length) == p then
    some (q.take (q.length - p.length))
  else none

/-- Find the common source pattern of a node's container: an origin `M`
other than the node itself and a fixed path `pre` with the leaf at every
path `p` equal to `NodeSource(M, pre ++ p)` (spec section 4.4). -/
def findCommonSource (n : Node) (c : Cont) : Option (Nat × List Nat) :=
  match n.ty.leafPaths with
  | [] => none
  | p0 :: _ =>
      match contGet c p0 with
      | none => none
      | some s0 =>
          if s0.node = n.id then none
          else
            match dropSuffixQ s0.tree_index p0 with
            | none => none
            | some pre =>
                if n.ty.leafPaths.all
                    (fun p => contGet c p == some ⟨s0.node, pre ++ p⟩) then
                  some (s0.node, pre)
                else none

/-- Whether node `x` already is an index chain reconstructing `pre` from
`M`: an empty `pre` requires `x = M`; otherwise the node must be a
tuple-index, a statically-literal array-index, or an inserted chain whose
trailing steps match the tail of `pre`, recursively. -/
def isChainFrom (g : List Node) : Nat → Nat → Nat → List Nat → Bool
  | fuel, x, M, pre =>
    if pre.isEmpty then x == M
    else
      match fuel with
      | 0 => false
      | fuel' + 1 =>
        match findNode g x with
        | none => false
        | some nx =>
          match nx.op with
          | .tupleIndex y i =>
              pre.getLast? == some i && isChainFrom g fuel' y M pre.dropLast
          | .arrayIndex y ix =>
              match litIndex g ix with
              | some k =>
                  pre.getLast? == some k && isChainFrom g fuel' y M pre.dropLast
              | none => false
          | .chainIndex y q =>
              !q.isEmpty && q.length ≤ pre.length &&
                pre.drop (pre.length - q.length) == q &&
                isChainFrom g fuel' y M (pre.take (pre.length - q.length))
          | _ => false

/-- The rewrite decision for one node: the common source pattern when it
exists, the shapes match, and the node is not already the corresponding
index chain. -/
def decideRewrite (gcur : List Node) (memo : List (Nat × Cont)) (n : Node) :
    Option (Nat × List Nat) :=
  match memoGet memo n.id with
  | none => none
  | some c =>
      match findCommonSource n c with
      | none => none
      | some (M, pre) =>
          match tyOf gcur M with
          | none => none
          | some tM =>
              match Ty.subtreeTy pre tM with
              | none => none
              | some tsub =>
                  if tsub = n.ty ∧ ¬ isChainFrom gcur pre.length n.id M pre then
                    some (M, pre)
                  else none

/-- Look up an id in the accumulated redirection environment: the id a
detached node's uses were redirected to, or the id itself. -/
def applySub (sub : List (Nat × Nat)) (x : Nat) : Nat :=
  match sub.find? (fun e => e.1 = x) with
  | some e => e.2
  | none => x

/-- Apply a function to every operand reference of an op. -/
def Op.mapOperands (f : Nat → Nat) : Op → Op
  | .param => .param
  | .literalOp v => .literalOp v
  | .identityOp x => .identityOp (f x)
  | .tupleOp xs => .tupleOp (xs.map f)
  | .tupleIndex x i => .tupleIndex (f x) i
  | .arrayOp xs => .arrayOp (xs.map f)
  | .arrayIndex x ix => .arrayIndex (f x) (f ix)
  | .arrayUpdate x v ix => .arrayUpdate (f x) (f v) (f ix)
  | .selectOp sel cases => .selectOp (f sel) (cases.map f)
  | .chainIndex x q => .chainIndex (f x) q
  | .otherOp xs => .otherOp (xs.map f)

/-- Phase 2 over the remaining nodes. `done` holds the already-processed
nodes (with inserted chains), `todo` the rest of the original list, `sub`
the pending use-redirections for detached nodes (applied to each node as
it is reached — equivalent to redirecting the uses eagerly, since every
redirection target is itself never redirected again), `ret` the return
node id, `nid` the next fresh id, `ch` the accumulated changed flag. -/
def rewriteAll (memo : List (Nat × Cont)) :
    List Node → List Node → List (Nat × Nat) → Nat → Nat → Bool →
      (List Node × Nat × Bool)
  | done, [], sub, ret, _, ch => (done, applySub sub ret, ch)
  | done, n :: rest, sub, ret, nid, ch =>
    let n' : Node := ⟨n.id, n.name, n.ty, n.op.mapOperands (applySub sub)⟩
    match decideRewrite (done ++ [n']) memo n' with
    | none => rewriteAll memo (done ++ [n']) rest sub ret nid ch
    | some (M, pre) =>
        if pre = [] then
          rewriteAll memo done rest ((n.id, M) :: sub) ret nid true
        else
          rewriteAll memo (done ++ [⟨nid, n.name, n.ty, .chainIndex M pre⟩])
            rest ((n.id, nid) :: sub) ret (nid + 1) true

instance {ε α : Type} [DecidableEq ε] [DecidableEq α] :
    DecidableEq (Except ε α) := fun a b =>
  match a, b with
  | .ok x, .ok y =>
      if h : x = y then isTrue (by rw [h])
      else isFalse (fun hc => h (Except.ok.inj hc))
  | .error e, .error e' =>
      if h : e = e' then isTrue (by rw [h])
      else isFalse (fun hc => h (Except.error.inj hc))
  | .ok _, .error _ => isFalse (fun hc => Except.noConfusion hc)
  | .error _, .ok _ => isFalse (fun hc => Except.noConfusion hc)

/-- The largest node id in a list. -/
def maxId (g : List Node) : Nat := g.foldl (fun a n => max a n.id) 0

/-- The whole pass on one function body: phase 1 (read-only analysis, an
invariant violation aborts with the graph untouched), then phase 2 (the
rewrites), returning the changed flag and the new function — models
`DataflowSimplificationPass::RunOnFunctionBaseInternal`
(spec section 4.4). -/
def runPass (f : Func) : Except String (Bool × Func) :=
  match analyze f.nodes with
  | Except.error e => Except.error e
  | Except.ok memo =>
      let r := rewriteAll memo [] f.nodes [] f.ret (maxId f.nodes + 1) false
      Except.ok (r.2.2, ⟨r.1, r.2.1⟩)

/-! ### Concrete scenario graphs (spec section 8) -/

/-- Scenario 1 node `x : u32 = param`. -/
def s1x : Node := ⟨0, "x", .bits 32, .param⟩

/-- Scenario 1 node `y : u32 = param`. -/
def s1y : Node := ⟨1, "y", .bits 32, .param⟩

/-- Scenario 1 node `t = tuple(x, y)`. -/
def s1t : Node := ⟨2, "t", .tup [.bits 32, .bits 32], .tupleOp [0, 1]⟩

/-- Scenario 1 node `r = tuple_index(t, 1)`. -/
def s1r : Node := ⟨3, "r", .bits 32, .tupleIndex 2 1⟩

/-- Scenario 1 consumer of `r` (an opaque user, so that `r` has a use). -/
def s1w : Node := ⟨4, "w", .bits 32, .otherOp [3]⟩

/-- The scenario 1 function body: `t = tuple(x, y); r = tuple_index(t, 1)`
with one consumer of `r`. -/
def scenario1 : Func := ⟨[s1x, s1y, s1t, s1r, s1w], 4⟩

/-- Scenario 4 node `A : u32[43] = param`. -/
def s4A : Node := ⟨0, "A", .arr (.bits 32) 43, .param⟩

/-- Scenario 4 node `x : u32 = param`. -/
def s4x : Node := ⟨1, "x", .bits 32, .param⟩

/-- Scenario 4 node `i : u32 = param` — not a compile-time constant. -/
def s4i : Node := ⟨2, "i", .bits 32, .param⟩

/-- Scenario 4 node `u = array_update(A, x, index={i})`. -/
def s4u : Node := ⟨3, "u", .arr (.bits 32) 43, .arrayUpdate 0 1 2⟩

/-- Scenario 4 node: the literal 42. -/
def s4c : Node := ⟨4, "c42", .bits 32, .literalOp (.bits 42)⟩

/-- Scenario 4 node `r = array_index(u, index={42})`. -/
def s4r : Node := ⟨5, "r", .bits 32, .arrayIndex 3 4⟩

/-- Scenario 4 consumer of `r`. -/
def s4w : Node := ⟨6, "w", .bits 32, .otherOp [5]⟩

/-- The scenario 4 function body: `u = array_update(A, x, index={i})`,
`r = array_index(u, index={42})` with one consumer of `r`. -/
def scenario4 : Func := ⟨[s4A, s4x, s4i, s4u, s4c, s4r, s4w], 6⟩

/-! ## Theorems -/

/-- C8: Equality of `NodeSource` values is structural: `a == b` holds
exactly when the origin node identities agree and the `tree_index` paths
are element-wise equal sequences. -/
theorem nodeSource_eq_structural (a b : NodeSource) :
    (a == b) = true ↔
      a.node = b.node ∧ ∀ i, a.tree_index.get? i = b.tree_index.get? i := by
  constructor
  · intro h
    have hb : NodeSource.beq a b = true := h
    simp only [NodeSource.beq, Bool.and_eq_true, beq_iff_eq] at hb
    exact ⟨hb.1, fun i => by rw [hb.2]⟩
  · rintro ⟨h1, h2⟩
    have h3 : a.tree_index = b.tree_index := List.ext h2
    show NodeSource.beq a b = true
    simp [NodeSource.beq, h1, h3]

theorem strJoin_comma (x : String) (xs : List String) :
    strJoin "," (x :: xs) = x ++ (xs.map (fun j => "," ++ j)).foldr (· ++ ·) "" := by
  induction xs generalizing x with
  | nil => simp [strJoin]
  | cons y ys ih =>
      rw [show strJoin "," (x :: y :: ys) = x ++ "," ++ strJoin "," (y :: ys) from rfl]
      rw [ih y]
      simp [String.append_assoc]

/-- C7: `NodeSource::ToString` renders an empty-path source as the origin's
name alone, and a source with path `i :: rest` as the name followed by the
brace-enclosed comma-joined indices. -/
theorem render_cases (getName : Nat → String) (s : NodeSource) :
    NodeSource.render getName s =
      match s.tree_index with
      | [] => getName s.node
      | i :: rest =>
          getName s.node ++ "\x7b" ++ toString i ++
            (rest.map (fun j => "," ++ toString j)).foldr (· ++ ·) "" ++ "\x7d" := by
  cases h : s.tree_index with
  | nil => simp [NodeSource.render, h]
  | cons i rest =>
      simp only [NodeSource.render, h, List.isEmpty_cons, List.map_cons]
      rw [if_neg (by simp)]
      rw [strJoin_comma]
      rw [List.map_map]
      simp only [String.append_assoc]
      rfl

/-- C4: `JoinElements` on a non-empty candidate list returns the front
candidate when all candidates are equal to it, and otherwise the fresh
self-describing `NodeSource(node, index)`; it never returns anything
else. -/
theorem joinElements_cases (ety : Ty) (d : NodeSource) (rest : List NodeSource)
    (cs : List (LeafTypeTree NodeSource)) (node : Nat) (idx : List Nat) :
    (joinElements ety (d :: rest) cs node idx = some d ∧
      ∀ s ∈ d :: rest, s = d) ∨
    (joinElements ety (d :: rest) cs node idx = some ⟨node, idx⟩ ∧
      ¬ ∀ s ∈ d :: rest, s = d) := by
  rcases Classical.em (∀ s ∈ d :: rest, s = d) with h | h
  · left
    refine ⟨?_, h⟩
    have hc : ((d :: rest).all (fun s => s = d)) = true := by
      simp only [List.all_eq_true, decide_eq_true_eq]
      exact h
    simp [joinElements, NodeSource.joinList, hc]
  · right
    refine ⟨?_, h⟩
    have hc : ¬ (((d :: rest).all (fun s => s = d)) = true) := by
      simp only [List.all_eq_true, decide_eq_true_eq]
      exact h
    simp [joinElements, NodeSource.joinList, hc]

/-- C10: `JoinElements` never inspects `control_sources`: two calls that
differ only in the control sources agree. -/
theorem joinElements_control_independent (ety : Ty) (ds : List NodeSource)
    (cs1 cs2 : List (LeafTypeTree NodeSource)) (node : Nat) (idx : List Nat)
    (h : ds ≠ []) :
    joinElements ety ds cs1 node idx = joinElements ety ds cs2 node idx := rfl

/-- Witness for C10 at a concrete non-empty candidate list and two
different control-source lists. -/
theorem joinElements_control_independent_witness :
    joinElements (Ty.bits 1) [⟨0, []⟩] [] 1 [] =
      joinElements (Ty.bits 1) [⟨0, []⟩] [LeafTypeTree.leaf ⟨9, [2]⟩] 1 [] :=
  joinElements_control_independent (Ty.bits 1) [⟨0, []⟩] []
    [LeafTypeTree.leaf ⟨9, [2]⟩] 1 [] (by decide)

/-- C9: an invariant violation detected during phase 1 (the read-only
analysis sweep) makes the whole invocation return that error; the rewrite
phase never runs, so no modified function is ever produced. -/
theorem phase1_error_atomic (g : List Node) (ret : Nat) (e : String)
    (h : analyze g = Except.error e) :
    runPass ⟨g, ret⟩ = Except.error e ∧
      ∀ b f', runPass ⟨g, ret⟩ ≠ Except.ok (b, f') := by
  constructor
  · simp [runPass, h]
  · intro b f'
    simp [runPass, h]

/-- A malformed single-node graph: a tuple-index of a nonexistent
operand. -/
def badGraph : List Node := [⟨0, "b", .bits 1, .tupleIndex 5 0⟩]

/-- Idempotence counterexample node `k : u32 = literal(0)`. -/
def ce_k : Node := ⟨0, "k", .bits 32, .literalOp (.bits 0)⟩

/-- Idempotence counterexample node `a : u32 = param`. -/
def ce_a : Node := ⟨1, "a", .bits 32, .param⟩

/-- Idempotence counterexample node `b : u32 = param`. -/
def ce_b : Node := ⟨2, "b", .bits 32, .param⟩

/-- Idempotence counterexample node `i : u32 = identity(k)`. -/
def ce_i : Node := ⟨3, "i", .bits 32, .identityOp 0⟩

/-- Idempotence counterexample node `A : u32[2] = array(a, b)`. -/
def ce_A : Node := ⟨4, "A", .arr (.bits 32) 2, .arrayOp [1, 2]⟩

/-- Idempotence counterexample node `r : u32 = array_index(A, i)` — the
index is not a literal node, so phase 1 must treat it as unknown. -/
def ce_r : Node := ⟨5, "r", .bits 32, .arrayIndex 4 3⟩

/-- Idempotence counterexample function: `i = identity(k)` is redirected to
the literal `k` by the first run, which turns `r`'s index into a statically
known literal — so the second run's analysis resolves `r` to `a` and
rewrites again. -/
def ceGraph : Func := ⟨[ce_k, ce_a, ce_b, ce_i, ce_A, ce_r], 5⟩

/-- The counterexample function after one pass run: `i` is detached, `r`'s
index operand now names the literal `k` directly. -/
def ceOnce : Func :=
  ⟨[ce_k, ce_a, ce_b, ce_A, ⟨5, "r", .bits 32, .arrayIndex 4 0⟩], 5⟩

/-- The counterexample function after a second pass run: `r` is resolved to
`a` and detached — the second run changes the graph again. -/
def ceTwice : Func := ⟨[ce_k, ce_a, ce_b, ce_A], 1⟩

/-- Witness for C9: the malformed graph fails phase 1, and the pass
invocation returns the same error. -/
theorem phase1_error_atomic_witness :
    runPass ⟨badGraph, 0⟩ = Except.error "type mismatch" ∧
      ∀ b f', runPass ⟨badGraph, 0⟩ ≠ Except.ok (b, f') :=
  phase1_error_atomic badGraph 0 "type mismatch" (by decide)

/-- C5: on `t = tuple(x, y); r = tuple_index(t, 1)` the pass reports a
change, redirects the use of `r` to `y` (node id 1), and detaches `r`
(node id 3): no node of the resulting graph mentions `r` as an operand. -/
theorem scenario1_rewrites :
    runPass scenario1 =
      Except.ok (true, ⟨[s1x, s1y, s1t, ⟨4, "w", .bits 32, .otherOp [1]⟩], 4⟩) ∧
    (∀ m ∈ [s1x, s1y, s1t, (⟨4, "w", .bits 32, .otherOp [1]⟩ : Node)],
      (3 : Nat) ∉ m.op.operands) := by
  decide

/-- C6: on `u = array_update(A, x, index={i})` with non-constant `i`
followed by `r = array_index(u, index={42})`, the pass performs no rewrite
(changed is false, the graph is returned unchanged); `r`'s provenance leaf
points at `u`'s slot 42, whose provenance is the unresolved self-describing
join `NodeSource(u, {42})`. -/
theorem scenario4_no_rewrite :
    runPass scenario4 = Except.ok (false, scenario4) ∧
    ((analyze scenario4.nodes).toOption.bind (fun m =>
      (memoGet m 5).bind (fun c => contGet c []))) = some ⟨3, [42]⟩ ∧
    ((analyze scenario4.nodes).toOption.bind (fun m =>
      (memoGet m 3).bind (fun c => contGet c [42]))) = some ⟨3, [42]⟩ := by
  decide

theorem LeafTypeTree.ofTyList_getElem {α : Type} (d : α) :
    ∀ (ts : List Ty) (i : Nat),
      (LeafTypeTree.ofTyList d ts)[i]? = (ts[i]?).map (LeafTypeTree.ofTy d)
  | [], i => by simp [LeafTypeTree.ofTyList]
  | t :: rest, 0 => by simp [LeafTypeTree.ofTyList]
  | t :: rest, i + 1 => by
      simp [LeafTypeTree.ofTyList, LeafTypeTree.ofTyList_getElem d rest i]

theorem Ty.mem_leafPathsList :
    ∀ (ts : List Ty) (k : Nat) (p : List Nat),
      p ∈ Ty.leafPathsList k ts ↔
        ∃ j t q, ts[j]? = some t ∧ p = (k + j) :: q ∧ q ∈ t.leafPaths
  | [], k, p => by simp [Ty.leafPathsList]
  | t :: rest, k, p => by
      rw [Ty.leafPathsList]
      rw [List.mem_append, List.mem_map, Ty.mem_leafPathsList rest (k + 1) p]
      constructor
      · rintro (⟨q, hq, rfl⟩ | ⟨j, t', q, hj, rfl, hq⟩)
        · exact ⟨0, t, q, by simp, by simp, hq⟩
        · exact ⟨j + 1, t', q, by simpa using hj, by ring_nf, hq⟩
      · rintro ⟨j, t', q, hj, rfl, hq⟩
        cases j with
        | zero =>
            left
            simp only [List.getElem?_cons_zero, Option.some.injEq] at hj
            exact ⟨q, hj ▸ hq, by simp⟩
        | succ j' =>
            right
            refine ⟨j', t', q, by simpa using hj, by ring_nf, hq⟩

theorem LeafTypeTree.get_ofTy {α : Type} (d : α) :
    ∀ (ty : Ty) (p : List Nat),
      (LeafTypeTree.ofTy d ty).get p = if p ∈ ty.leafPaths then some d else none
  | .bits w, p => by
      cases p <;>
        simp [LeafTypeTree.ofTy, LeafTypeTree.get, Ty.leafPaths, LeafTypeTree.child]
  | .tup ts, p => by
      cases p with
      | nil =>
          rw [if_neg]
          · simp [LeafTypeTree.ofTy, LeafTypeTree.get]
          · rw [show (Ty.tup ts).leafPaths = Ty.leafPathsList 0 ts from rfl]
            rw [Ty.mem_leafPathsList]
            rintro ⟨j, t', q, _, h, _⟩
            exact List.noConfusion h
      | cons i q =>
          rw [show LeafTypeTree.ofTy d (Ty.tup ts) =
              LeafTypeTree.tup (LeafTypeTree.ofTyList d ts) from rfl]
          rw [show (LeafTypeTree.tup (LeafTypeTree.ofTyList d ts)).get (i :: q) =
              ((LeafTypeTree.ofTyList d ts)[i]?).bind (LeafTypeTree.get q) from rfl]
          rw [LeafTypeTree.ofTyList_getElem]
          cases hts : ts[i]? with
          | none =>
              rw [if_neg]
              · simp
              · rw [show (Ty.tup ts).leafPaths = Ty.leafPathsList 0 ts from rfl]
                rw [Ty.mem_leafPathsList]
                rintro ⟨j, t', q', hj, hpe, _⟩
                have hji : j = i := by
                  have := List.cons.inj hpe
                  omega
                rw [hji, hts] at hj
                exact Option.noConfusion hj
          | some t =>
              have hmem : t ∈ ts := by
                have h2 := List.getElem?_eq_some.mp hts
                obtain ⟨hlt, hget⟩ := h2
                exact hget ▸ List.getElem_mem hlt
              rw [Option.map_some', Option.some_bind]
              rw [LeafTypeTree.get_ofTy d t q]
              by_cases hq : q ∈ t.leafPaths
              · rw [if_pos hq, if_pos]
                rw [show (Ty.tup ts).leafPaths = Ty.leafPathsList 0 ts from rfl]
                rw [Ty.mem_leafPathsList]
                exact ⟨i, t, q, hts, by simp, hq⟩
              · rw [if_neg hq, if_neg]
                rw [show (Ty.tup ts).leafPaths = Ty.leafPathsList 0 ts from rfl]
                rw [Ty.mem_leafPathsList]
                rintro ⟨j, t', q', hj, hpe, hq'⟩
                obtain ⟨hji, hqq⟩ := List.cons.inj hpe
                have : j = i := by omega
                rw [this, hts] at hj
                have : t' = t := (Option.some.inj hj).symm
                exact hq (hqq ▸ this ▸ hq')
  | .arr t n, p => by
      cases p with
      | nil =>
          rw [if_neg]
          · simp [LeafTypeTree.ofTy, LeafTypeTree.get]
          · rw [show (Ty.arr t n).leafPaths =
                (List.range n).flatMap
                  (fun i => (Ty.leafPaths t).map (fun p => i :: p)) from rfl]
            simp
      | cons i q =>
          rw [show LeafTypeTree.ofTy d (Ty.arr t n) =
              LeafTypeTree.arr (List.replicate n (LeafTypeTree.ofTy d t)) from rfl]
          rw [show (LeafTypeTree.arr
                (List.replicate n (LeafTypeTree.ofTy d t))).get (i :: q) =
              ((List.replicate n (LeafTypeTree.ofTy d t))[i]?).bind
                (LeafTypeTree.get q) from rfl]
          rw [List.getElem?_replicate]
          by_cases hin : i < n
          · rw [if_pos hin, Option.some_bind]
            rw [LeafTypeTree.get_ofTy d t q]
            have hiff : (i :: q) ∈ (Ty.arr t n).leafPaths ↔ q ∈ t.leafPaths := by
              rw [show (Ty.arr t n).leafPaths =
                  (List.range n).flatMap
                    (fun i => (Ty.leafPaths t).map (fun p => i :: p)) from rfl]
              simp only [List.mem_flatMap, List.mem_range, List.mem_map]
              constructor
              · rintro ⟨j, hj, q', hq', he⟩
                obtain ⟨h1, h2⟩ := List.cons.inj he
                exact h2 ▸ hq'
              · intro hq
                exact ⟨i, hin, q, hq, rfl⟩
            by_cases hq : q ∈ t.leafPaths
            · rw [if_pos hq, if_pos (hiff.mpr hq)]
            · rw [if_neg hq, if_neg (fun hc => hq (hiff.mp hc))]
          · rw [if_neg hin]
            rw [if_neg]
            · simp
            · rw [show (Ty.arr t n).leafPaths =
                  (List.range n).flatMap
                    (fun i => (Ty.leafPaths t).map (fun p => i :: p)) from rfl]
              simp only [List.mem_flatMap, List.mem_range, List.mem_map]
              rintro ⟨j, hj, q', hq', he⟩
              obtain ⟨h1, _⟩ := List.cons.inj he
              exact hin (h1 ▸ hj)

theorem LeafTypeTree.mapWithPathList_getElem {α : Type} (f : List Nat → α → α) :
    ∀ (ts : List (LeafTypeTree α)) (k i : Nat),
      (LeafTypeTree.mapWithPathList f k ts)[i]? =
        (ts[i]?).map
          (LeafTypeTree.mapWithPath (fun p a => f ((k + i) :: p) a))
  | [], k, i => by simp [LeafTypeTree.mapWithPathList]
  | t :: rest, k, 0 => by simp [LeafTypeTree.mapWithPathList]
  | t :: rest, k, i + 1 => by
      rw [LeafTypeTree.mapWithPathList]
      rw [show ((LeafTypeTree.mapWithPath (fun p a => f (k :: p) a) t) ::
          LeafTypeTree.mapWithPathList f (k + 1) rest)[i + 1]? =
          (LeafTypeTree.mapWithPathList f (k + 1) rest)[i]? from by simp]
      rw [LeafTypeTree.mapWithPathList_getElem f rest (k + 1) i]
      rw [show (t :: rest)[i + 1]? = rest[i]? from by simp]
      have : k + 1 + i = k + (i + 1) := by omega
      rw [this]

theorem LeafTypeTree.get_mapWithPath {α : Type} :
    ∀ (p : List Nat) (t : LeafTypeTree α) (f : List Nat → α → α),
      (t.mapWithPath f).get p = (t.get p).map (f p)
  | [], .leaf a, f => by simp [LeafTypeTree.mapWithPath, LeafTypeTree.get]
  | [], .tup ts, f => by simp [LeafTypeTree.mapWithPath, LeafTypeTree.get]
  | [], .arr ts, f => by simp [LeafTypeTree.mapWithPath, LeafTypeTree.get]
  | i :: q, .leaf a, f => by
      simp [LeafTypeTree.mapWithPath, LeafTypeTree.get, LeafTypeTree.child]
  | i :: q, .tup ts, f => by
      rw [show (LeafTypeTree.tup ts).mapWithPath f =
          LeafTypeTree.tup (LeafTypeTree.mapWithPathList f 0 ts) from rfl]
      rw [show (LeafTypeTree.tup (LeafTypeTree.mapWithPathList f 0 ts)).get (i :: q) =
          ((LeafTypeTree.mapWithPathList f 0 ts)[i]?).bind (LeafTypeTree.get q)
          from rfl]
      rw [show (LeafTypeTree.tup ts).get (i :: q) =
          (ts[i]?).bind (LeafTypeTree.get q) from rfl]
      rw [LeafTypeTree.mapWithPathList_getElem]
      cases hts : ts[i]? with
      | none => simp
      | some u =>
          rw [Option.map_some', Option.some_bind, Option.some_bind]
          rw [LeafTypeTree.get_mapWithPath q u (fun p a => f ((0 + i) :: p) a)]
          simp
  | i :: q, .arr ts, f => by
      rw [show (LeafTypeTree.arr ts).mapWithPath f =
          LeafTypeTree.arr (LeafTypeTree.mapWithPathList f 0 ts) from rfl]
      rw [show (LeafTypeTree.arr (LeafTypeTree.mapWithPathList f 0 ts)).get (i :: q) =
          ((LeafTypeTree.mapWithPathList f 0 ts)[i]?).bind (LeafTypeTree.get q)
          from rfl]
      rw [show (LeafTypeTree.arr ts).get (i :: q) =
          (ts[i]?).bind (LeafTypeTree.get q) from rfl]
      rw [LeafTypeTree.mapWithPathList_getElem]
      cases hts : ts[i]? with
      | none => simp
      | some u =>
          rw [Option.map_some', Option.some_bind, Option.some_bind]
          rw [LeafTypeTree.get_mapWithPath q u (fun p a => f ((0 + i) :: p) a)]
          simp

/-- C3: `DefaultHandler` produces a `LeafTypeTree` over the node's output
type whose leaf at every structural path `p` of that type is exactly
`NodeSource(node, p)` — and holds nothing at any other path. -/
theorem defaultHandler_selfdescribing (nid : Nat) (ty : Ty) (p : List Nat) :
    (defaultHandler nid ty).get p =
      if p ∈ ty.leafPaths then some ⟨nid, p⟩ else none := by
  rw [show defaultHandler nid ty =
      (LeafTypeTree.ofTy (⟨0, []⟩ : NodeSource) ty).mapWithPath
        (fun index _ => ⟨nid, index⟩) from rfl]
  rw [LeafTypeTree.get_mapWithPath]
  rw [LeafTypeTree.get_ofTy]
  by_cases h : p ∈ ty.leafPaths
  · rw [if_pos h, if_pos h, Option.map_some']
  · rw [if_neg h, if_neg h, Option.map_none']

/-! ### Toolkit: lists, options, lookups -/

theorem mapM_option_eq_some {α β : Type} (f : α → Option β) :
    ∀ (l : List α) (ys : List β),
      l.mapM f = some ys ↔ List.Forall₂ (fun a b => f a = some b) l ys := by
  intro l
  induction l with
  | nil =>
      intro ys
      rw [List.mapM_nil]
      constructor
      · intro h
        have : ([] : List β) = ys := Option.some.inj h
        exact this ▸ List.Forall₂.nil
      · intro h
        cases h
        rfl
  | cons a l ih =>
      intro ys
      rw [List.mapM_cons]
      cases hfa : f a with
      | none =>
          simp only [hfa, Option.bind_eq_bind, Option.none_bind]
          constructor
          · intro h
            exact Option.noConfusion h
          · intro h
            cases h with
            | cons hr _ => rw [hfa] at hr; exact Option.noConfusion hr
      | some b =>
          simp only [hfa, Option.bind_eq_bind, Option.some_bind]
          cases hml : l.mapM f with
          | none =>
              simp only [Option.bind_eq_bind, Option.none_bind]
              constructor
              · intro h
                exact Option.noConfusion h
              · intro h
                cases h with
                | cons hr hrest =>
                    rw [(ih _).mpr hrest] at hml
                    exact Option.noConfusion hml
          | some bs =>
              simp only [Option.bind_eq_bind, Option.some_bind]
              constructor
              · intro h
                have : b :: bs = ys := Option.some.inj h
                subst this
                exact List.Forall₂.cons hfa ((ih bs).mp hml)
              · intro h
                cases h with
                | cons hr hrest =>
                    have hb : b = _ := Option.some.inj (hfa.symm.trans hr)
                    have hbs := (ih _).mpr hrest
                    rw [hml] at hbs
                    have : bs = _ := Option.some.inj hbs
                    rw [← hb, ← this]
                    rfl

theorem forall2_getElem {α β : Type} {R : α → β → Prop} :
    ∀ {as : List α} {bs : List β}, List.Forall₂ R as bs →
      ∀ (i : Nat) (a : α), as[i]? = some a → ∃ b, bs[i]? = some b ∧ R a b := by
  intro as bs h
  induction h with
  | nil =>
      intro i a ha
      simp at ha
  | cons hr hrest ih =>
      intro i a ha
      cases i with
      | zero =>
          simp only [List.getElem?_cons_zero] at ha
          have : _ = a := Option.some.inj ha
          exact ⟨_, by simp, this ▸ hr⟩
      | succ i' =>
          simp only [List.getElem?_cons_succ] at ha ⊢
          exact ih i' a ha

theorem forall2_mem_left {α β : Type} {R : α → β → Prop} :
    ∀ {as : List α} {bs : List β}, List.Forall₂ R as bs →
      ∀ a ∈ as, ∃ b ∈ bs, R a b := by
  intro as bs h
  induction h with
  | nil => intro a ha; simp at ha
  | cons hr hrest ih =>
      intro a ha
      rcases List.mem_cons.mp ha with rfl | ha'
      · exact ⟨_, List.mem_cons_self _ _, hr⟩
      · obtain ⟨b, hb, hrb⟩ := ih a ha'
        exact ⟨b, List.mem_cons_of_mem _ hb, hrb⟩

theorem lookupVal_append (l1 l2 : List (Nat × Value)) (x : Nat) :
    lookupVal (l1 ++ l2) x =
      match lookupVal l1 x with
      | some v => some v
      | none => lookupVal l2 x := by
  show ((l1 ++ l2).find? (fun e => e.1 = x)).map Prod.snd = _
  rw [List.find?_append]
  cases h : l1.find? (fun e => e.1 = x) with
  | none => simp [lookupVal, h, Option.or]
  | some e => simp [lookupVal, h, Option.or]

theorem lookupVal_nil (x : Nat) : lookupVal [] x = none := rfl

theorem lookupVal_cons (e : Nat × Value) (l : List (Nat × Value)) (x : Nat) :
    lookupVal (e :: l) x = if e.1 = x then some e.2 else lookupVal l x := by
  show ((e :: l).find? (fun e => e.1 = x)).map Prod.snd = _
  rw [List.find?_cons]
  by_cases h : e.1 = x
  · simp [h]
  · simp only [h]
    simp [lookupVal, h]

/-! ### Toolkit: value typing -/

theorem hasTyList_iff_forall2 :
    ∀ (vs : List Value) (ts : List Ty),
      Value.hasTyList vs ts = true ↔
        List.Forall₂ (fun v t => Value.hasTy v t = true) vs ts
  | [], [] => by simp [Value.hasTyList]
  | [], _ :: _ => by
      simp only [Value.hasTyList]
      constructor
      · intro h; exact Bool.noConfusion h
      · intro h; cases h
  | _ :: _, [] => by
      simp only [Value.hasTyList]
      constructor
      · intro h; exact Bool.noConfusion h
      · intro h; cases h
  | v :: vs, t :: ts => by
      simp only [Value.hasTyList, Bool.and_eq_true, hasTyList_iff_forall2 vs ts]
      constructor
      · rintro ⟨h1, h2⟩; exact List.Forall₂.cons h1 h2
      · intro h; cases h with | cons h1 h2 => exact ⟨h1, h2⟩

theorem hasTyAll_iff :
    ∀ (vs : List Value) (t : Ty),
      Value.hasTyAll vs t = true ↔ ∀ v ∈ vs, Value.hasTy v t = true
  | [], t => by simp [Value.hasTyAll]
  | v :: vs, t => by
      simp only [Value.hasTyAll, Bool.and_eq_true, hasTyAll_iff vs t]
      constructor
      · rintro ⟨h1, h2⟩ u hu
        rcases List.mem_cons.mp hu with rfl | hu'
        · exact h1
        · exact h2 u hu'
      · intro h
        exact ⟨h v (List.mem_cons_self _ _),
          fun u hu => h u (List.mem_cons_of_mem _ hu)⟩

theorem hasTy_tup_iff (v : Value) (ts : List Ty) :
    Value.hasTy v (Ty.tup ts) = true ↔
      ∃ vs, v = Value.tup vs ∧
        List.Forall₂ (fun u t => Value.hasTy u t = true) vs ts := by
  cases v with
  | bits k =>
      simp only [Value.hasTy]
      constructor
      · intro h; exact Bool.noConfusion h
      · rintro ⟨vs, h, _⟩; exact Value.noConfusion h
  | tup vs =>
      simp only [Value.hasTy, hasTyList_iff_forall2]
      constructor
      · intro h; exact ⟨vs, rfl, h⟩
      · rintro ⟨vs', hv, h⟩
        have : vs = vs' := by injection hv
        exact this ▸ h
  | arr vs =>
      simp only [Value.hasTy]
      constructor
      · intro h; exact Bool.noConfusion h
      · rintro ⟨vs', h, _⟩; exact Value.noConfusion h

theorem hasTy_arr_iff (v : Value) (t : Ty) (n : Nat) :
    Value.hasTy v (Ty.arr t n) = true ↔
      ∃ vs, v = Value.arr vs ∧ vs.length = n ∧
        ∀ u ∈ vs, Value.hasTy u t = true := by
  cases v with
  | bits k =>
      simp only [Value.hasTy]
      constructor
      · intro h; exact Bool.noConfusion h
      · rintro ⟨vs, h, _⟩; exact Value.noConfusion h
  | tup vs =>
      simp only [Value.hasTy]
      constructor
      · intro h; exact Bool.noConfusion h
      · rintro ⟨vs', h, _⟩; exact Value.noConfusion h
  | arr vs =>
      simp only [Value.hasTy, Bool.and_eq_true, beq_iff_eq, hasTyAll_iff]
      constructor
      · rintro ⟨h1, h2⟩; exact ⟨vs, rfl, h1, h2⟩
      · rintro ⟨vs', hv, h1, h2⟩
        have : vs = vs' := by injection hv
        subst this
        exact ⟨h1, h2⟩

theorem hasTy_bits_iff (v : Value) (w : Nat) :
    Value.hasTy v (Ty.bits w) = true ↔ ∃ k, v = Value.bits k ∧ k < 2 ^ w := by
  cases v with
  | bits k =>
      simp only [Value.hasTy, decide_eq_true_eq]
      constructor
      · intro h; exact ⟨k, rfl, h⟩
      · rintro ⟨k', hv, h⟩
        have : k = k' := by injection hv
        exact this ▸ h
  | tup vs =>
      simp only [Value.hasTy]
      constructor
      · intro h; exact Bool.noConfusion h
      · rintro ⟨k, h, _⟩; exact Value.noConfusion h
  | arr vs =>
      simp only [Value.hasTy]
      constructor
      · intro h; exact Bool.noConfusion h
      · rintro ⟨k, h, _⟩; exact Value.noConfusion h

theorem forall2_getElem_right {α β : Type} {R : α → β → Prop} :
    ∀ {as : List α} {bs : List β}, List.Forall₂ R as bs →
      ∀ (i : Nat) (b : β), bs[i]? = some b → ∃ a, as[i]? = some a ∧ R a b := by
  intro as bs h
  induction h with
  | nil =>
      intro i b hb
      simp at hb
  | cons hr hrest ih =>
      intro i b hb
      cases i with
      | zero =>
          simp only [List.getElem?_cons_zero] at hb
          have : _ = b := Option.some.inj hb
          exact ⟨_, by simp, this ▸ hr⟩
      | succ i' =>
          simp only [List.getElem?_cons_succ] at hb ⊢
          exact ih i' b hb

theorem hasTy_child {v : Value} {t : Ty} (h : Value.hasTy v t = true)
    {i : Nat} {ti : Ty} (hc : t.child i = some ti) :
    ∃ w, v.child i = some w ∧ Value.hasTy w ti = true := by
  cases t with
  | bits w => exact Option.noConfusion hc
  | tup ts =>
      obtain ⟨vs, rfl, hf⟩ := (hasTy_tup_iff v ts).mp h
      simp only [Ty.child] at hc
      obtain ⟨w, hw, hr⟩ := forall2_getElem_right hf i ti hc
      exact ⟨w, hw, hr⟩
  | arr te n =>
      obtain ⟨vs, rfl, hlen, hall⟩ := (hasTy_arr_iff v te n).mp h
      simp only [Ty.child] at hc
      by_cases hin : i < n
      · rw [if_pos hin] at hc
        have hti : te = ti := Option.some.inj hc
        have hin' : i < vs.length := hlen ▸ hin
        refine ⟨vs[i], List.getElem?_eq_getElem hin', ?_⟩
        exact hti ▸ hall vs[i] (List.getElem_mem hin')
      · rw [if_neg hin] at hc
        exact Option.noConfusion hc

theorem hasTy_sub {q : List Nat} : ∀ {v : Value} {t t' : Ty},
    Value.hasTy v t = true → Ty.subtreeTy q t = some t' →
    ∃ w, Value.sub q v = some w ∧ Value.hasTy w t' = true := by
  induction q with
  | nil =>
      intro v t t' h hq
      have : t = t' := Option.some.inj hq
      exact ⟨v, rfl, this ▸ h⟩
  | cons i q ih =>
      intro v t t' h hq
      simp only [Ty.subtreeTy] at hq
      cases hc : t.child i with
      | none => rw [hc] at hq; exact Option.noConfusion hq
      | some ti =>
          rw [hc] at hq
          simp only [Option.some_bind] at hq
          obtain ⟨w, hw, hwt⟩ := hasTy_child h hc
          obtain ⟨w', hw', hwt'⟩ := ih hwt hq
          refine ⟨w', ?_, hwt'⟩
          simp only [Value.sub, hw, Option.some_bind]
          exact hw'

theorem value_sub_append (q p : List Nat) :
    ∀ (v : Value), Value.sub (q ++ p) v = (Value.sub q v).bind (Value.sub p) := by
  induction q with
  | nil => intro v; simp [Value.sub]
  | cons i q ih =>
      intro v
      simp only [List.cons_append, Value.sub]
      cases v.child i with
      | none => simp
      | some w => simp [ih w]

theorem mem_leafPaths_bits (w : Nat) (p : List Nat) :
    p ∈ (Ty.bits w).leafPaths ↔ p = [] := by
  simp [Ty.leafPaths]

theorem mem_leafPaths_tup (ts : List Ty) (p : List Nat) :
    p ∈ (Ty.tup ts).leafPaths ↔
      ∃ i t q, ts[i]? = some t ∧ p = i :: q ∧ q ∈ t.leafPaths := by
  rw [show (Ty.tup ts).leafPaths = Ty.leafPathsList 0 ts from rfl]
  rw [Ty.mem_leafPathsList]
  constructor
  · rintro ⟨j, t, q, hj, rfl, hq⟩
    exact ⟨j, t, q, hj, by simp, hq⟩
  · rintro ⟨i, t, q, hi, rfl, hq⟩
    exact ⟨i, t, q, hi, by simp, hq⟩

theorem mem_leafPaths_arr (t : Ty) (n : Nat) (p : List Nat) :
    p ∈ (Ty.arr t n).leafPaths ↔
      ∃ j q, j < n ∧ p = j :: q ∧ q ∈ t.leafPaths := by
  rw [show (Ty.arr t n).leafPaths =
      (List.range n).flatMap (fun i => (Ty.leafPaths t).map (fun p => i :: p))
      from rfl]
  simp only [List.mem_flatMap, List.mem_range, List.mem_map]
  constructor
  · rintro ⟨j, hj, q, hq, rfl⟩
    exact ⟨j, q, hj, rfl, hq⟩
  · rintro ⟨j, q, hj, rfl, hq⟩
    exact ⟨j, hj, q, hq, rfl⟩

/-- Two values of the same type whose leaves agree at every structural leaf
path of the type are equal. -/
theorem value_ext : ∀ (t : Ty) (v w : Value),
    Value.hasTy v t = true → Value.hasTy w t = true →
    (∀ p ∈ t.leafPaths, Value.sub p v = Value.sub p w) → v = w
  | .bits wd, v, w => by
      intro hv hw h
      have hh := h [] ((mem_leafPaths_bits wd []).mpr rfl)
      simp only [Value.sub] at hh
      exact Option.some.inj hh
  | .tup ts, v, w => by
      intro hv hw h
      obtain ⟨vs, rfl, hfv⟩ := (hasTy_tup_iff v ts).mp hv
      obtain ⟨ws, rfl, hfw⟩ := (hasTy_tup_iff w ts).mp hw
      have : vs = ws := by
        apply List.ext_getElem?
        intro i
        cases hts : ts[i]? with
        | none =>
            have hlen1 : vs.length = ts.length := hfv.length_eq
            have hlen2 : ws.length = ts.length := hfw.length_eq
            have hge : ts.length ≤ i := by
              by_contra hlt
              push_neg at hlt
              rw [List.getElem?_eq_getElem hlt] at hts
              exact Option.noConfusion hts
            rw [List.getElem?_eq_none (hlen1 ▸ hge),
              List.getElem?_eq_none (hlen2 ▸ hge)]
        | some ti =>
            obtain ⟨vi, hvi, hvit⟩ := forall2_getElem_right hfv i ti hts
            obtain ⟨wi, hwi, hwit⟩ := forall2_getElem_right hfw i ti hts
            rw [hvi, hwi]
            have : vi = wi := by
              apply value_ext ti vi wi hvit hwit
              intro q hq
              have hp := h (i :: q)
                ((mem_leafPaths_tup ts (i :: q)).mpr ⟨i, ti, q, hts, rfl, hq⟩)
              simpa [Value.sub, Value.child, hvi, hwi] using hp
            rw [this]
      rw [this]
  | .arr te n, v, w => by
      intro hv hw h
      obtain ⟨vs, rfl, hlenv, hallv⟩ := (hasTy_arr_iff v te n).mp hv
      obtain ⟨ws, rfl, hlenw, hallw⟩ := (hasTy_arr_iff w te n).mp hw
      have : vs = ws := by
        apply List.ext_getElem?
        intro i
        by_cases hin : i < n
        · have hin1 : i < vs.length := hlenv ▸ hin
          have hin2 : i < ws.length := hlenw ▸ hin
          rw [List.getElem?_eq_getElem hin1, List.getElem?_eq_getElem hin2]
          have : vs[i] = ws[i] := by
            apply value_ext te vs[i] ws[i]
              (hallv vs[i] (List.getElem_mem hin1))
              (hallw ws[i] (List.getElem_mem hin2))
            intro q hq
            have hp := h (i :: q)
              ((mem_leafPaths_arr te n (i :: q)).mpr ⟨i, q, hin, rfl, hq⟩)
            simpa [Value.sub, Value.child, List.getElem?_eq_getElem hin1,
              List.getElem?_eq_getElem hin2] using hp
          rw [this]
        · push_neg at hin
          rw [List.getElem?_eq_none (hlenv ▸ hin),
            List.getElem?_eq_none (hlenw ▸ hin)]
      rw [this]
termination_by t _ _ => sizeOf t
decreasing_by
  · simp_wf
    have hmem : ti ∈ ts := by
      have h2 := List.getElem?_eq_some.mp hts
      obtain ⟨hlt, hget⟩ := h2
      exact hget ▸ List.getElem_mem hlt
    have := List.sizeOf_lt_of_mem hmem
    omega
  · simp_wf
    omega

/-! ### Toolkit: graphs, containers, evaluation -/

theorem findNode_some {g : List Node} {x : Nat} {m : Node}
    (h : findNode g x = some m) : m ∈ g ∧ m.id = x := by
  refine ⟨List.mem_of_find?_eq_some h, ?_⟩
  have := List.find?_some h
  simpa using this

theorem tyOf_some {g : List Node} {x : Nat} {t : Ty} (h : tyOf g x = some t) :
    ∃ m, m ∈ g ∧ m.id = x ∧ m.ty = t := by
  simp only [tyOf, Option.map_eq_some'] at h
  obtain ⟨m, hm, hty⟩ := h
  obtain ⟨hmem, hid⟩ := findNode_some hm
  exact ⟨m, hmem, hid, hty⟩

theorem buildContAux (f : List Nat → Option NodeSource) :
    ∀ (l : List (List Nat)) (c : Cont),
      buildContList f l = Except.ok c →
      ∀ p, contGet c p = if p ∈ l then f p else none := by
  intro l
  induction l with
  | nil =>
      intro c h p
      have : ([] : Cont) = c := Except.ok.inj h
      subst this
      simp [contGet]
  | cons p0 l' ih =>
      intro c h p
      rw [buildContList] at h
      cases hf0 : f p0 with
      | none =>
          rw [hf0] at h
          exact Except.noConfusion h
      | some s =>
          rw [hf0] at h
          cases hrest : buildContList f l' with
          | error e =>
              rw [hrest] at h
              exact Except.noConfusion h
          | ok cs =>
              rw [hrest] at h
              have hc : (p0, s) :: cs = c := Except.ok.inj h
              subst hc
              by_cases hpp : p0 = p
              · subst hpp
                simp only [contGet, List.find?_cons, decide_True]
                rw [if_pos (List.mem_cons_self _ _)]
                simp [hf0]
              · have hfind : contGet ((p0, s) :: cs) p = contGet cs p := by
                  simp only [contGet, List.find?_cons]
                  rw [show (decide (p0 = p)) = false from by simp [hpp]]
                rw [hfind, ih cs hrest p]
                by_cases hmem : p ∈ l'
                · rw [if_pos hmem, if_pos (List.mem_cons_of_mem _ hmem)]
                · rw [if_neg hmem, if_neg (fun hc => by
                    rcases List.mem_cons.mp hc with h1 | h2
                    · exact hpp h1.symm
                    · exact hmem h2)]

theorem buildCont_get {ty : Ty} {f : List Nat → Option NodeSource} {c : Cont}
    (h : buildCont ty f = Except.ok c) (p : List Nat) :
    contGet c p = if p ∈ ty.leafPaths then f p else none :=
  buildContAux f ty.leafPaths c h p

theorem wfAux_step {seen : List Nat} {n : Node} {rest : List Node}
    (h : wfAux seen (n :: rest) = true) :
    (∀ x ∈ n.op.operands, x ∈ seen) ∧ n.id ∉ seen ∧
      wfAux (n.id :: seen) rest = true := by
  simp only [wfAux, Bool.and_eq_true, List.all_eq_true, Bool.not_eq_true'] at h
  obtain ⟨⟨h1, h2⟩, h3⟩ := h
  refine ⟨fun x hx => ?_, fun hc => ?_, h3⟩
  · exact List.elem_iff.mp (h1 x hx)
  · have h4 : seen.contains n.id = true := List.elem_iff.mpr hc
    rw [h4] at h2
    exact Bool.noConfusion h2

theorem wfAux_not_seen :
    ∀ {todo : List Node} {seen : List Nat}, wfAux seen todo = true →
      ∀ m ∈ todo, m.id ∉ seen := by
  intro todo
  induction todo with
  | nil => intro seen _ m hm; simp at hm
  | cons n rest ih =>
      intro seen h m hm
      obtain ⟨_, hid, hwf'⟩ := wfAux_step h
      rcases List.mem_cons.mp hm with rfl | hm'
      · exact hid
      · intro hc
        exact ih hwf' m hm' (List.mem_cons_of_mem _ hc)

theorem evalList_append (env : Nat → Value) (oracle : Nat → List Value → Value) :
    ∀ (l1 l2 : List Node) (acc : List (Nat × Value)),
      evalList env oracle (l1 ++ l2) acc =
        evalList env oracle l2 (evalList env oracle l1 acc) := by
  intro l1
  induction l1 with
  | nil => intro l2 acc; rfl
  | cons n rest ih =>
      intro l2 acc
      simp only [List.cons_append, evalList]
      cases evalNode (lookupVal acc) env oracle n with
      | some v => exact ih l2 (acc ++ [(n.id, v)])
      | none => exact ih l2 acc

theorem evalList_stable (env : Nat → Value) (oracle : Nat → List Value → Value) :
    ∀ (todo : List Node) (acc : List (Nat × Value)) (x : Nat),
      (∀ m ∈ todo, m.id ≠ x) →
      lookupVal (evalList env oracle todo acc) x = lookupVal acc x := by
  intro todo
  induction todo with
  | nil => intro acc x _; rfl
  | cons n rest ih =>
      intro acc x h
      simp only [evalList]
      cases evalNode (lookupVal acc) env oracle n with
      | some v =>
          rw [ih (acc ++ [(n.id, v)]) x (fun m hm => h m (List.mem_cons_of_mem _ hm))]
          rw [lookupVal_append]
          cases hl : lookupVal acc x with
          | some w => rfl
          | none =>
              rw [lookupVal_cons]
              rw [if_neg (h n (List.mem_cons_self _ _))]
              rfl
      | none => exact ih acc x (fun m hm => h m (List.mem_cons_of_mem _ hm))

theorem mapM_option_congr {α β : Type} {f g : α → Option β} :
    ∀ (l : List α), (∀ a ∈ l, f a = g a) → l.mapM f = l.mapM g := by
  intro l
  induction l with
  | nil => intro _; rfl
  | cons a rest ih =>
      intro h
      rw [List.mapM_cons, List.mapM_cons]
      rw [h a (List.mem_cons_self _ _)]
      rw [ih (fun b hb => h b (List.mem_cons_of_mem _ hb))]

theorem evalOp_congr {look1 look2 : Nat → Option Value} {env : Nat → Value}
    {oracle : Nat → List Value → Value} {n : Node}
    (h : ∀ x ∈ n.op.operands, look1 x = look2 x) :
    evalOp look1 env oracle n = evalOp look2 env oracle n := by
  cases hop : n.op with
  | param => simp [evalOp, hop]
  | literalOp v => simp [evalOp, hop]
  | identityOp x =>
      simp only [evalOp, hop]
      rw [h x (by simp [hop, Op.operands])]
  | tupleOp xs =>
      simp only [evalOp, hop]
      rw [mapM_option_congr xs (fun a ha => h a (by simp [hop, Op.operands, ha]))]
  | tupleIndex x i =>
      simp only [evalOp, hop]
      rw [h x (by simp [hop, Op.operands])]
  | arrayOp xs =>
      simp only [evalOp, hop]
      rw [mapM_option_congr xs (fun a ha => h a (by simp [hop, Op.operands, ha]))]
  | arrayIndex x ix =>
      simp only [evalOp, hop]
      rw [h x (by simp [hop, Op.operands]), h ix (by simp [hop, Op.operands])]
  | arrayUpdate x v ix =>
      simp only [evalOp, hop]
      rw [h x (by simp [hop, Op.operands]), h v (by simp [hop, Op.operands]),
        h ix (by simp [hop, Op.operands])]
  | selectOp sel cases_ =>
      simp only [evalOp, hop]
      rw [h sel (by simp [hop, Op.operands])]
      rw [mapM_option_congr cases_
        (fun a ha => h a (by simp [hop, Op.operands, ha]))]
  | chainIndex x q =>
      simp only [evalOp, hop]
      rw [h x (by simp [hop, Op.operands])]
  | otherOp xs =>
      simp only [evalOp, hop]
      rw [mapM_option_congr xs (fun a ha => h a (by simp [hop, Op.operands, ha]))]

theorem evalNode_congr {look1 look2 : Nat → Option Value} {env : Nat → Value}
    {oracle : Nat → List Value → Value} {n : Node}
    (h : ∀ x ∈ n.op.operands, look1 x = look2 x) :
    evalNode look1 env oracle n = evalNode look2 env oracle n := by
  simp only [evalNode]
  rw [evalOp_congr h]

/-- The final value map of a well-formed node list is a fixpoint: each
node's final value is its op applied to the final values of its operands. -/
theorem evalList_fix (env : Nat → Value) (oracle : Nat → List Value → Value) :
    ∀ (todo : List Node) (acc : List (Nat × Value)) (seen : List Nat),
      wfAux seen todo = true →
      (∀ x, x ∉ seen → lookupVal acc x = none) →
      ∀ n ∈ todo,
        lookupVal (evalList env oracle todo acc) n.id =
          evalNode (fun y => lookupVal (evalList env oracle todo acc) y)
            env oracle n := by
  intro todo
  induction todo with
  | nil => intro acc seen _ _ n hn; simp at hn
  | cons m rest ih =>
      intro acc seen hwf hacc n hn
      obtain ⟨hops, hid, hwf'⟩ := wfAux_step hwf
      have hrestids : ∀ k ∈ rest, k.id ∉ (m.id :: seen) := wfAux_not_seen hwf'
      rcases List.mem_cons.mp hn with heq | hn'
      · subst heq
        cases hev : evalNode (lookupVal acc) env oracle n with
        | some v =>
            have hstep : evalList env oracle (n :: rest) acc
                = evalList env oracle rest (acc ++ [(n.id, v)]) := by
              simp [evalList, hev]
            rw [hstep]
            have hLHS : lookupVal
                (evalList env oracle rest (acc ++ [(n.id, v)])) n.id = some v := by
              rw [evalList_stable env oracle rest _ n.id
                (fun k hk hc => hrestids k hk
                  (by rw [hc]; exact List.mem_cons_self _ _))]
              rw [lookupVal_append, hacc n.id hid, lookupVal_cons]
              simp
            rw [hLHS]
            have hcong : ∀ x ∈ n.op.operands,
                lookupVal (evalList env oracle rest (acc ++ [(n.id, v)])) x =
                  lookupVal acc x := by
              intro x hx
              have hxs : x ∈ seen := hops x hx
              rw [evalList_stable env oracle rest _ x
                (fun k hk hc => hrestids k hk
                  (by rw [hc]; exact List.mem_cons_of_mem _ hxs))]
              rw [lookupVal_append]
              cases hl : lookupVal acc x with
              | some w => rfl
              | none =>
                  rw [lookupVal_cons]
                  rw [if_neg (fun hc => hid (by
                    show n.id ∈ seen
                    rw [show n.id = x from hc]
                    exact hxs))]
                  rfl
            rw [evalNode_congr hcong, hev]
        | none =>
            have hstep : evalList env oracle (n :: rest) acc
                = evalList env oracle rest acc := by
              simp [evalList, hev]
            rw [hstep]
            have hLHS : lookupVal (evalList env oracle rest acc) n.id = none := by
              rw [evalList_stable env oracle rest _ n.id
                (fun k hk hc => hrestids k hk
                  (by rw [hc]; exact List.mem_cons_self _ _))]
              exact hacc n.id hid
            rw [hLHS]
            have hcong : ∀ x ∈ n.op.operands,
                lookupVal (evalList env oracle rest acc) x = lookupVal acc x := by
              intro x hx
              have hxs : x ∈ seen := hops x hx
              exact evalList_stable env oracle rest _ x
                (fun k hk hc => hrestids k hk
                  (by rw [hc]; exact List.mem_cons_of_mem _ hxs))
            rw [evalNode_congr hcong, hev]
      · cases hev : evalNode (lookupVal acc) env oracle m with
        | some v =>
            rw [show evalList env oracle (m :: rest) acc
                = evalList env oracle rest (acc ++ [(m.id, v)]) from by
              simp [evalList, hev]]
            refine ih (acc ++ [(m.id, v)]) (m.id :: seen) hwf' ?_ n hn'
            intro x hx
            rw [lookupVal_append,
              hacc x (fun hc => hx (List.mem_cons_of_mem _ hc)), lookupVal_cons]
            rw [if_neg (fun hc => hx (by rw [← hc]; exact List.mem_cons_self _ _))]
            rfl
        | none =>
            rw [show evalList env oracle (m :: rest) acc
                = evalList env oracle rest acc from by simp [evalList, hev]]
            refine ih acc (m.id :: seen) hwf' ?_ n hn'
            intro x hx
            exact hacc x (fun hc => hx (List.mem_cons_of_mem _ hc))

/-- A parameter valuation is admissible for a graph when every parameter
node receives a value of its declared type. -/
def envOk (g : List Node) (env : Nat → Value) : Prop :=
  ∀ n ∈ g, n.op = Op.param → Value.hasTy (env n.id) n.ty = true

/-- An opaque-node semantics is admissible for a graph when every opaque
node's result has the node's declared type. -/
def oracleOk (g : List Node) (oracle : Nat → List Value → Value) : Prop :=
  ∀ n ∈ g, ∀ xs vs, n.op = Op.otherOp xs →
    Value.hasTy (oracle n.id vs) n.ty = true

theorem mapM_option_total {α β : Type} {f : α → Option β} :
    ∀ l : List α, (∀ a ∈ l, ∃ b, f a = some b) →
      ∃ ys, l.mapM f = some ys ∧
        List.Forall₂ (fun a b => f a = some b) l ys := by
  intro l
  induction l with
  | nil => intro _; exact ⟨[], List.mapM_nil f, List.Forall₂.nil⟩
  | cons a rest ih =>
      intro h
      obtain ⟨b, hb⟩ := h a (List.mem_cons_self _ _)
      obtain ⟨ys, hys, hf⟩ := ih (fun x hx => h x (List.mem_cons_of_mem _ hx))
      refine ⟨b :: ys, ?_, List.Forall₂.cons hb hf⟩
      rw [List.mapM_cons, hb, hys]
      rfl

theorem forall2_mem_right {α β : Type} {R : α → β → Prop} :
    ∀ {as : List α} {bs : List β}, List.Forall₂ R as bs →
      ∀ b ∈ bs, ∃ a ∈ as, R a b := by
  intro as bs h
  induction h with
  | nil => intro b hb; simp at hb
  | cons hr hrest ih =>
      intro b hb
      rcases List.mem_cons.mp hb with rfl | hb'
      · exact ⟨_, List.mem_cons_self _ _, hr⟩
      · obtain ⟨a, ha, hra⟩ := ih b hb'
        exact ⟨a, List.mem_cons_of_mem _ ha, hra⟩

theorem forall2_compose_mem {α β γ : Type} {R : α → β → Prop}
    {S : α → γ → Prop} {T : β → γ → Prop} :
    ∀ {as : List α} {bs : List β} {cs : List γ},
      List.Forall₂ R as bs → List.Forall₂ S as cs →
      (∀ a ∈ as, ∀ b c, R a b → S a c → T b c) →
      List.Forall₂ T bs cs := by
  intro as bs cs h1
  induction h1 generalizing cs with
  | nil =>
      intro h2 _
      cases h2
      exact List.Forall₂.nil
  | cons hr hrest ih =>
      intro h2 hT
      cases h2 with
      | cons hs hsrest =>
          exact List.Forall₂.cons
            (hT _ (List.mem_cons_self _ _) _ _ hr hs)
            (ih hsrest (fun a ha => hT a (List.mem_cons_of_mem _ ha)))

theorem wf_findNode_aux :
    ∀ (todo : List Node) (seen : List Nat), wfAux seen todo = true →
      ∀ m ∈ todo, findNode todo m.id = some m := by
  intro todo
  induction todo with
  | nil => intro seen _ m hm; simp at hm
  | cons n rest ih =>
      intro seen hwf m hm
      obtain ⟨_, hid, hwf'⟩ := wfAux_step hwf
      rcases List.mem_cons.mp hm with heq | hm'
      · subst heq
        simp [findNode, List.find?_cons]
      · have hne : n.id ≠ m.id := by
          intro hc
          exact wfAux_not_seen hwf' m hm' (by rw [← hc]; exact List.mem_cons_self _ _)
        show (n :: rest).find? (fun k => k.id = m.id) = some m
        rw [List.find?_cons]
        rw [show (decide (n.id = m.id)) = false from by simp [hne]]
        exact ih (n.id :: seen) hwf' m hm'

/-- In a well-formed graph, looking a node up by its id finds that node. -/
theorem wf_findNode {g : List Node} (hwf : wf g = true) {m : Node}
    (hm : m ∈ g) : findNode g m.id = some m :=
  wf_findNode_aux g [] hwf m hm

/-- Preservation and totality of one node's evaluation: a type-consistent
node whose operands carry values of their declared types evaluates to a
value of its own declared type. -/
theorem evalNode_total {g : List Node} {n : Node} {look : Nat → Option Value}
    {env : Nat → Value} {oracle : Nat → List Value → Value}
    (hty : typeOk g n = true)
    (hlook : ∀ x ∈ n.op.operands, ∃ v t, look x = some v ∧ tyOf g x = some t ∧
      Value.hasTy v t = true)
    (henv : n.op = Op.param → Value.hasTy (env n.id) n.ty = true)
    (horacle : ∀ xs vs, n.op = Op.otherOp xs →
      Value.hasTy (oracle n.id vs) n.ty = true) :
    ∃ v, evalNode look env oracle n = some v ∧ Value.hasTy v n.ty = true := by
  cases hop : n.op with
  | param =>
      have h := henv hop
      exact ⟨env n.id, by simp [evalNode, evalOp, hop, h], h⟩
  | literalOp v =>
      simp only [typeOk, hop] at hty
      exact ⟨v, by simp [evalNode, evalOp, hop, hty], hty⟩
  | identityOp x =>
      simp only [typeOk, hop, beq_iff_eq] at hty
      obtain ⟨v, t, hv, htx, hvt⟩ := hlook x (by simp [hop, Op.operands])
      rw [hty] at htx
      have : t = n.ty := (Option.some.inj htx).symm
      subst this
      exact ⟨v, by simp [evalNode, evalOp, hop, hv, hvt], hvt⟩
  | tupleOp xs =>
      simp only [typeOk, hop] at hty
      cases hnty : n.ty with
      | bits w => rw [hnty] at hty; exact Bool.noConfusion hty
      | arr t k => rw [hnty] at hty; exact Bool.noConfusion hty
      | tup ts =>
          rw [hnty] at hty
          simp only [beq_iff_eq] at hty
          obtain ⟨vs, hvs, hf2⟩ := mapM_option_total xs (fun x hx => by
            obtain ⟨v, t, hv, _, _⟩ :=
              hlook x (by simp [hop, Op.operands, hx])
            exact ⟨v, hv⟩)
          have hfts := (mapM_option_eq_some (tyOf g) xs ts).mp hty
          have htyped : List.Forall₂ (fun u t => Value.hasTy u t = true) vs ts := by
            refine forall2_compose_mem hf2 hfts ?_
            intro x hx b c hb hc
            obtain ⟨v', t', hv', ht', hvt'⟩ :=
              hlook x (by simp [hop, Op.operands, hx])
            have hb' : v' = b := Option.some.inj (hv'.symm.trans hb)
            have hc' : t' = c := Option.some.inj (ht'.symm.trans hc)
            exact hb' ▸ hc' ▸ hvt'
          have hvalT : Value.hasTy (Value.tup vs) (Ty.tup ts) = true :=
            (hasTy_tup_iff _ _).mpr ⟨vs, rfl, htyped⟩
          have hval : Value.hasTy (Value.tup vs) n.ty = true := by
            rw [hnty]
            exact hvalT
          refine ⟨Value.tup vs, ?_, ?_⟩
          · simp only [evalNode, evalOp, hop]
            rw [show xs.mapM look = some vs from hvs]
            simp only [Option.map_some', Option.some_bind]
            rw [if_pos (by first | exact hval | exact hvalT)]
          · first | exact hval | exact hvalT
  | tupleIndex x i =>
      simp only [typeOk, hop] at hty
      cases htx : tyOf g x with
      | none => rw [htx] at hty; exact Bool.noConfusion hty
      | some t0 =>
          rw [htx] at hty
          cases t0 with
          | bits w => exact Bool.noConfusion hty
          | arr t k => exact Bool.noConfusion hty
          | tup ts =>
              simp only [beq_iff_eq] at hty
              obtain ⟨v, t, hv, htx2, hvt⟩ :=
                hlook x (by simp [hop, Op.operands])
              have : t = Ty.tup ts := Option.some.inj (htx2.symm.trans htx)
              subst this
              obtain ⟨vs, rfl, hf⟩ := (hasTy_tup_iff v ts).mp hvt
              obtain ⟨vi, hvi, hvit⟩ := forall2_getElem_right hf i n.ty hty
              exact ⟨vi, by simp [evalNode, evalOp, hop, hv, hvi, hvit], hvit⟩
  | arrayOp xs =>
      simp only [typeOk, hop] at hty
      cases hnty : n.ty with
      | bits w => rw [hnty] at hty; exact Bool.noConfusion hty
      | tup ts => rw [hnty] at hty; exact Bool.noConfusion hty
      | arr t k =>
          rw [hnty] at hty
          simp only [Bool.and_eq_true, beq_iff_eq, List.all_eq_true] at hty
          obtain ⟨hlen, hall⟩ := hty
          obtain ⟨vs, hvs, hf2⟩ := mapM_option_total xs (fun x hx => by
            obtain ⟨v, t', hv, _, _⟩ :=
              hlook x (by simp [hop, Op.operands, hx])
            exact ⟨v, hv⟩)
          have htyped : ∀ u ∈ vs, Value.hasTy u t = true := by
            intro u hu
            obtain ⟨x, hx, hlx⟩ := forall2_mem_right hf2 u hu
            obtain ⟨v', t', hv', ht', hvt'⟩ :=
              hlook x (by simp [hop, Op.operands, hx])
            have hu' : v' = u := Option.some.inj (hv'.symm.trans hlx)
            have ht'' : t' = t := by
              have := hall x hx
              simp only [beq_iff_eq] at this
              exact Option.some.inj (ht'.symm.trans this)
            exact hu' ▸ ht'' ▸ hvt'
          have hvalT : Value.hasTy (Value.arr vs) (Ty.arr t k) = true :=
            (hasTy_arr_iff _ _ _).mpr
              ⟨vs, rfl, hf2.length_eq.symm ▸ hlen, htyped⟩
          have hval : Value.hasTy (Value.arr vs) n.ty = true := by
            rw [hnty]
            exact hvalT
          refine ⟨Value.arr vs, ?_, ?_⟩
          · simp only [evalNode, evalOp, hop]
            rw [show xs.mapM look = some vs from hvs]
            simp only [Option.map_some', Option.some_bind]
            rw [if_pos (by first | exact hval | exact hvalT)]
          · first | exact hval | exact hvalT
  | arrayIndex x ix =>
      simp only [typeOk, hop] at hty
      cases htx : tyOf g x with
      | none => rw [htx] at hty; exact Bool.noConfusion hty
      | some t0 =>
          rw [htx] at hty
          cases t0 with
          | bits w => exact Bool.noConfusion hty
          | tup ts => exact Bool.noConfusion hty
          | arr t k =>
              cases hix : tyOf g ix with
              | none => rw [hix] at hty; exact Bool.noConfusion hty
              | some ti0 =>
                  rw [hix] at hty
                  cases ti0 with
                  | tup ts' => exact Bool.noConfusion hty
                  | arr t' k' => exact Bool.noConfusion hty
                  | bits w =>
                      simp only [Bool.and_eq_true, beq_iff_eq,
                        decide_eq_true_eq] at hty
                      obtain ⟨hteq, hk⟩ := hty
                      obtain ⟨vb, tb, hvb, htb, hvbt⟩ :=
                        hlook x (by simp [hop, Op.operands])
                      have : tb = Ty.arr t k := Option.some.inj (htb.symm.trans htx)
                      subst this
                      obtain ⟨vs, rfl, hvslen, hvsall⟩ :=
                        (hasTy_arr_iff vb t k).mp hvbt
                      obtain ⟨vi, ti, hvi, hti, hvit⟩ :=
                        hlook ix (by simp [hop, Op.operands])
                      have : ti = Ty.bits w := Option.some.inj (hti.symm.trans hix)
                      subst this
                      obtain ⟨kv, rfl, _⟩ := (hasTy_bits_iff vi w).mp hvit
                      have hidx : min kv (vs.length - 1) < vs.length := by
                        rw [hvslen]
                        omega
                      refine ⟨vs[min kv (vs.length - 1)], ?_, ?_⟩
                      · simp [evalNode, evalOp, hop, hvb, hvi,
                          List.getElem?_eq_getElem hidx,
                          hteq ▸ hvsall _ (List.getElem_mem hidx)]
                      · exact hteq ▸ hvsall _ (List.getElem_mem hidx)
  | arrayUpdate x v ix =>
      simp only [typeOk, hop] at hty
      cases htx : tyOf g x with
      | none => rw [htx] at hty; exact Bool.noConfusion hty
      | some t0 =>
          rw [htx] at hty
          cases t0 with
          | bits w => exact Bool.noConfusion hty
          | tup ts => exact Bool.noConfusion hty
          | arr t k =>
              cases htv : tyOf g v with
              | none => rw [htv] at hty; exact Bool.noConfusion hty
              | some tv =>
                  rw [htv] at hty
                  cases hix : tyOf g ix with
                  | none => rw [hix] at hty; exact Bool.noConfusion hty
                  | some ti0 =>
                      rw [hix] at hty
                      cases ti0 with
                      | tup ts' => exact Bool.noConfusion hty
                      | arr t' k' => exact Bool.noConfusion hty
                      | bits w =>
                          simp only [Bool.and_eq_true, beq_iff_eq] at hty
                          obtain ⟨hteq, htveq⟩ := hty
                          obtain ⟨vb, tb, hvb, htb, hvbt⟩ :=
                            hlook x (by simp [hop, Op.operands])
                          have : tb = Ty.arr t k :=
                            Option.some.inj (htb.symm.trans htx)
                          subst this
                          obtain ⟨vs, rfl, hvslen, hvsall⟩ :=
                            (hasTy_arr_iff vb t k).mp hvbt
                          obtain ⟨vv, tv', hvv, htv2, hvvt⟩ :=
                            hlook v (by simp [hop, Op.operands])
                          have : tv' = tv := Option.some.inj (htv2.symm.trans htv)
                          subst this
                          obtain ⟨vi, ti, hvi, hti, hvit⟩ :=
                            hlook ix (by simp [hop, Op.operands])
                          have : ti = Ty.bits w :=
                            Option.some.inj (hti.symm.trans hix)
                          subst this
                          obtain ⟨kv, rfl, _⟩ := (hasTy_bits_iff vi w).mp hvit
                          have hres : Value.hasTy
                              (Value.arr (if kv < vs.length then vs.set kv vv
                                else vs)) n.ty = true := by
                            rw [← hteq]
                            refine (hasTy_arr_iff _ _ _).mpr
                              ⟨_, rfl, ?_, ?_⟩
                            · by_cases hkv : kv < vs.length
                              · rw [if_pos hkv]
                                rw [List.length_set]
                                exact hvslen
                              · rw [if_neg hkv]
                                exact hvslen
                            · intro u hu
                              by_cases hkv : kv < vs.length
                              · rw [if_pos hkv] at hu
                                rcases List.mem_or_eq_of_mem_set hu with h1 | h2
                                · exact hvsall u h1
                                · rw [h2]
                                  exact htveq ▸ hvvt
                              · rw [if_neg hkv] at hu
                                exact hvsall u hu
                          exact ⟨_, by
                            simp [evalNode, evalOp, hop, hvb, hvv, hvi, hres],
                            hres⟩
  | selectOp sel cases_ =>
      simp only [typeOk, hop] at hty
      cases hsel : tyOf g sel with
      | none => rw [hsel] at hty; exact Bool.noConfusion hty
      | some ts0 =>
          rw [hsel] at hty
          cases ts0 with
          | tup ts' => exact Bool.noConfusion hty
          | arr t' k' => exact Bool.noConfusion hty
          | bits w =>
              simp only [Bool.and_eq_true, List.all_eq_true, beq_iff_eq] at hty
              obtain ⟨hne, hall⟩ := hty
              obtain ⟨vsel, tsel, hvsel, htsel, hvselt⟩ :=
                hlook sel (by simp [hop, Op.operands])
              have : tsel = Ty.bits w := Option.some.inj (htsel.symm.trans hsel)
              subst this
              obtain ⟨kv, rfl, _⟩ := (hasTy_bits_iff vsel w).mp hvselt
              obtain ⟨cvs, hcvs, hf2⟩ := mapM_option_total cases_ (fun x hx => by
                obtain ⟨v', t', hv', _, _⟩ :=
                  hlook x (by simp [hop, Op.operands, hx])
                exact ⟨v', hv'⟩)
              have htyped : ∀ u ∈ cvs, Value.hasTy u n.ty = true := by
                intro u hu
                obtain ⟨x, hx, hlx⟩ := forall2_mem_right hf2 u hu
                obtain ⟨v', t', hv', ht', hvt'⟩ :=
                  hlook x (by simp [hop, Op.operands, hx])
                have hu' : v' = u := Option.some.inj (hv'.symm.trans hlx)
                have ht'' : t' = n.ty :=
                  Option.some.inj (ht'.symm.trans (hall x hx))
                exact hu' ▸ ht'' ▸ hvt'
              have hlen0 : 0 < cvs.length := by
                have hne' : cases_ ≠ [] := by
                  intro hc
                  rw [hc] at hne
                  simp at hne
                have h1 : 0 < cases_.length := List.length_pos.mpr hne'
                have h2 := hf2.length_eq
                omega
              have hidx : min kv (cvs.length - 1) < cvs.length := by omega
              refine ⟨cvs[min kv (cvs.length - 1)], ?_,
                htyped _ (List.getElem_mem hidx)⟩
              simp only [evalNode, evalOp, hop]
              rw [hvsel, show cases_.mapM look = some cvs from hcvs]
              simp only [Option.some_bind]
              rw [List.getElem?_eq_getElem hidx]
              simp only [Option.some_bind]
              rw [if_pos (htyped _ (List.getElem_mem hidx))]
  | chainIndex x q =>
      simp only [typeOk, hop] at hty
      cases htx : tyOf g x with
      | none => rw [htx] at hty; exact Bool.noConfusion hty
      | some tx =>
          rw [htx] at hty
          simp only [beq_iff_eq] at hty
          obtain ⟨v, t, hv, htx2, hvt⟩ := hlook x (by simp [hop, Op.operands])
          have : t = tx := Option.some.inj (htx2.symm.trans htx)
          subst this
          obtain ⟨w, hw, hwt⟩ := hasTy_sub hvt hty
          exact ⟨w, by simp [evalNode, evalOp, hop, hv, hw, hwt], hwt⟩
  | otherOp xs =>
      obtain ⟨vs, hvs, _⟩ := mapM_option_total xs (fun x hx => by
        obtain ⟨v', t', hv', _, _⟩ := hlook x (by simp [hop, Op.operands, hx])
        exact ⟨v', hv'⟩)
      have hval := horacle xs vs hop
      refine ⟨oracle n.id vs, ?_, hval⟩
      simp only [evalNode, evalOp, hop]
      rw [show xs.mapM look = some vs from hvs]
      simp only [Option.map_some', Option.some_bind]
      rw [if_pos hval]

theorem evalList_total_aux (env : Nat → Value) (oracle : Nat → List Value → Value)
    (g : List Node) (hg : ∀ n ∈ g, typeOk g n = true)
    (henv : envOk g env) (horacle : oracleOk g oracle) (hwfg : wf g = true) :
    ∀ (todo : List Node) (acc : List (Nat × Value)) (seen : List Nat),
      wfAux seen todo = true →
      (∀ m ∈ todo, m ∈ g) →
      (∀ x ∈ seen, ∃ mv t, lookupVal acc x = some mv ∧ tyOf g x = some t ∧
        Value.hasTy mv t = true) →
      (∀ x, x ∉ seen → lookupVal acc x = none) →
      ∀ n ∈ todo, ∃ v,
        lookupVal (evalList env oracle todo acc) n.id = some v ∧
          Value.hasTy v n.ty = true := by
  intro todo
  induction todo with
  | nil => intro acc seen _ _ _ _ n hn; simp at hn
  | cons m rest ih =>
      intro acc seen hwf hmem hseen hnone n hn
      obtain ⟨hops, hid, hwf'⟩ := wfAux_step hwf
      have hmg : m ∈ g := hmem m (List.mem_cons_self _ _)
      obtain ⟨v, hev, hvt⟩ := evalNode_total (hg m hmg)
        (fun x hx => hseen x (hops x hx))
        (fun hp => henv m hmg hp)
        (fun xs vs hp => horacle m hmg xs vs hp)
      rw [show evalList env oracle (m :: rest) acc
          = evalList env oracle rest (acc ++ [(m.id, v)]) from by
        simp [evalList, hev]]
      have hrestids : ∀ k ∈ rest, k.id ∉ (m.id :: seen) := wfAux_not_seen hwf'
      rcases List.mem_cons.mp hn with heq | hn'
      · subst heq
        refine ⟨v, ?_, hvt⟩
        rw [evalList_stable env oracle rest _ n.id
          (fun k hk hc => hrestids k hk
            (by rw [hc]; exact List.mem_cons_self _ _))]
        rw [lookupVal_append, hnone n.id hid, lookupVal_cons]
        simp
      · refine ih (acc ++ [(m.id, v)]) (m.id :: seen) hwf'
          (fun k hk => hmem k (List.mem_cons_of_mem _ hk)) ?_ ?_ n hn'
        · intro x hx
          rcases List.mem_cons.mp hx with heq2 | hx'
          · subst heq2
            refine ⟨v, m.ty, ?_, ?_, hvt⟩
            · rw [lookupVal_append, hnone m.id hid, lookupVal_cons]
              simp
            · rw [tyOf, wf_findNode hwfg hmg]
              rfl
          · obtain ⟨mv, t, h1, h2, h3⟩ := hseen x hx'
            refine ⟨mv, t, ?_, h2, h3⟩
            rw [lookupVal_append, h1]
        · intro x hx
          rw [lookupVal_append,
            hnone x (fun hc => hx (List.mem_cons_of_mem _ hc)), lookupVal_cons]
          rw [if_neg (fun hc => hx (by rw [← hc]; exact List.mem_cons_self _ _))]
          rfl

/-- Totality and type preservation of evaluation over a well-formed,
type-consistent graph with admissible parameter and oracle valuations. -/
theorem evalList_total (env : Nat → Value) (oracle : Nat → List Value → Value)
    {g : List Node} (hwfg : wf g = true) (hg : ∀ n ∈ g, typeOk g n = true)
    (henv : envOk g env) (horacle : oracleOk g oracle) :
    ∀ n ∈ g, ∃ v, lookupVal (evalList env oracle g []) n.id = some v ∧
      Value.hasTy v n.ty = true :=
  evalList_total_aux env oracle g hg henv horacle hwfg g [] [] hwfg
    (fun _ hm => hm) (fun x hx => by simp at hx) (fun _ _ => rfl)

theorem analyzeNode_typeOk {g : List Node} {memo : List (Nat × Cont)}
    {n : Node} {c : Cont} (h : analyzeNode g memo n = Except.ok c) :
    typeOk g n = true := by
  cases hty : typeOk g n with
  | true => rfl
  | false =>
      rw [show analyzeNode g memo n = Except.error "type mismatch" from by
        rw [analyzeNode]
        rw [hty]
        rfl] at h
      exact Except.noConfusion h

theorem analyzeList_typeOk (g : List Node) :
    ∀ (todo : List Node) (memo out : List (Nat × Cont)),
      analyzeList g todo memo = Except.ok out →
      ∀ n ∈ todo, typeOk g n = true := by
  intro todo
  induction todo with
  | nil => intro memo out _ n hn; simp at hn
  | cons m rest ih =>
      intro memo out h n hn
      rw [analyzeList] at h
      cases hm : analyzeNode g memo m with
      | error e => rw [hm] at h; exact Except.noConfusion h
      | ok c =>
          rw [hm] at h
          rcases List.mem_cons.mp hn with heq | hn'
          · subst heq
            exact analyzeNode_typeOk hm
          · exact ih (memo ++ [(m.id, c)]) out h n hn'

theorem memoGet_append (l1 l2 : List (Nat × Cont)) (x : Nat) :
    memoGet (l1 ++ l2) x =
      match memoGet l1 x with
      | some c => some c
      | none => memoGet l2 x := by
  show ((l1 ++ l2).find? (fun e => e.1 = x)).map Prod.snd = _
  rw [List.find?_append]
  cases h : l1.find? (fun e => e.1 = x) with
  | none => simp [memoGet, h, Option.or]
  | some e => simp [memoGet, h, Option.or]

theorem memoGet_singleton (a : Nat) (c : Cont) (x : Nat) :
    memoGet [(a, c)] x = if a = x then some c else none := by
  show (([(a, c)]).find? (fun e => e.1 = x)).map Prod.snd = _
  rw [List.find?_cons]
  by_cases h : a = x
  · simp [h]
  · simp only [h]
    simp [memoGet, h]

theorem buildCont_get_some {ty : Ty} {f : List Nat → Option NodeSource}
    {c : Cont} (h : buildCont ty f = Except.ok c) {p : List Nat}
    {s : NodeSource} (hs : contGet c p = some s) :
    p ∈ ty.leafPaths ∧ f p = some s := by
  have h2 := buildCont_get h p
  rw [hs] at h2
  by_cases hm : p ∈ ty.leafPaths
  · rw [if_pos hm] at h2
    exact ⟨hm, h2.symm⟩
  · rw [if_neg hm] at h2
    exact Option.noConfusion h2

theorem evalNode_eq_some_iff {look : Nat → Option Value} {env : Nat → Value}
    {oracle : Nat → List Value → Value} {n : Node} {v : Value} :
    evalNode look env oracle n = some v ↔
      evalOp look env oracle n = some v ∧ Value.hasTy v n.ty = true := by
  simp only [evalNode]
  cases hop : evalOp look env oracle n with
  | none =>
      simp only [Option.none_bind]
      constructor
      · intro h; exact Option.noConfusion h
      · rintro ⟨h, _⟩; exact Option.noConfusion h
  | some w =>
      simp only [Option.some_bind]
      by_cases hw : Value.hasTy w n.ty = true
      · rw [if_pos hw]
        constructor
        · intro h
          have : w = v := Option.some.inj h
          subst this
          exact ⟨rfl, hw⟩
        · rintro ⟨h, _⟩
          exact h
      · rw [if_neg hw]
        constructor
        · intro h; exact Option.noConfusion h
        · rintro ⟨h, hv⟩
          have : w = v := Option.some.inj h
          subst this
          exact absurd hv hw

theorem vals_operand {g : List Node} {env : Nat → Value}
    {oracle : Nat → List Value → Value}
    (hwfg : wf g = true) (hgty : ∀ k ∈ g, typeOk g k = true)
    (henv : envOk g env) (horacle : oracleOk g oracle)
    {x : Nat} {T : Ty} (ht : tyOf g x = some T) :
    ∃ v, lookupVal (evalList env oracle g []) x = some v ∧
      Value.hasTy v T = true := by
  obtain ⟨m, hmg, hid, hty⟩ := tyOf_some ht
  obtain ⟨v, hv, hvt⟩ := evalList_total env oracle hwfg hgty henv horacle m hmg
  exact ⟨v, hid ▸ hv, hty ▸ hvt⟩

theorem vals_fix {g : List Node} {env : Nat → Value}
    {oracle : Nat → List Value → Value} (hwfg : wf g = true)
    {n : Node} (hn : n ∈ g) :
    lookupVal (evalList env oracle g []) n.id =
      evalNode (fun y => lookupVal (evalList env oracle g []) y)
        env oracle n :=
  evalList_fix env oracle g [] [] hwfg (fun _ _ => rfl) n hn

theorem vals_lit {g : List Node} {env : Nat → Value}
    {oracle : Nat → List Value → Value}
    (hwfg : wf g = true) (hgty : ∀ k ∈ g, typeOk g k = true)
    {ix k : Nat} (hlit : litIndex g ix = some k) :
    lookupVal (evalList env oracle g []) ix = some (Value.bits k) := by
  cases hfind : findNode g ix with
  | none => simp [litIndex, hfind] at hlit
  | some nx =>
      simp only [litIndex, hfind] at hlit
      obtain ⟨hmem, hid⟩ := findNode_some hfind
      cases hop : nx.op with
      | literalOp v =>
          cases v with
          | bits k' =>
              simp only [hop] at hlit
              have hk : k' = k := Option.some.inj hlit
              subst hk
              have hty := hgty nx hmem
              simp only [typeOk, hop] at hty
              have hfx := @vals_fix g env oracle hwfg nx hmem
              rw [hid] at hfx
              rw [hfx]
              simp [evalNode, evalOp, hop, hty]
          | tup vs => simp [hop] at hlit
          | arr vs => simp [hop] at hlit
      | param => simp [hop] at hlit
      | identityOp x => simp [hop] at hlit
      | tupleOp xs => simp [hop] at hlit
      | tupleIndex x i => simp [hop] at hlit
      | arrayOp xs => simp [hop] at hlit
      | arrayIndex x i => simp [hop] at hlit
      | arrayUpdate x v i => simp [hop] at hlit
      | selectOp s cs => simp [hop] at hlit
      | chainIndex x q => simp [hop] at hlit
      | otherOp xs => simp [hop] at hlit

/-- Provenance soundness of one engine step: every leaf provenance value
the engine computes for a node denotes the same runtime leaf value as the
node's own leaf (spec section 8, "Provenance equality implies leaf
equality"). -/
theorem analyzeNode_sound {g : List Node} {env : Nat → Value}
    {oracle : Nat → List Value → Value} {memo : List (Nat × Cont)}
    {n : Node} {c : Cont}
    (hwfg : wf g = true) (hgty : ∀ k ∈ g, typeOk g k = true)
    (henv : envOk g env) (horacle : oracleOk g oracle)
    (hng : n ∈ g)
    (hmemo : ∀ id c0, memoGet memo id = some c0 →
      ∀ p s, contGet c0 p = some s →
      (lookupVal (evalList env oracle g []) id).bind (Value.sub p) =
        (lookupVal (evalList env oracle g []) s.node).bind
          (Value.sub s.tree_index))
    (h : analyzeNode g memo n = Except.ok c) :
    ∀ p s, contGet c p = some s →
      (lookupVal (evalList env oracle g []) n.id).bind (Value.sub p) =
        (lookupVal (evalList env oracle g []) s.node).bind
          (Value.sub s.tree_index) := by
  intro p s hcps
  have hty : typeOk g n = true := analyzeNode_typeOk h
  obtain ⟨vn, hvn, hvnt⟩ :=
    evalList_total env oracle hwfg hgty henv horacle n hng
  have hfix := @vals_fix g env oracle hwfg n hng
  rw [hvn] at hfix
  have hopv := (evalNode_eq_some_iff.mp hfix.symm).1
  have h' : (match n.op with
    | .param => buildCont n.ty (fun p => some ⟨n.id, p⟩)
    | .literalOp _ => buildCont n.ty (fun p => some ⟨n.id, p⟩)
    | .otherOp _ => buildCont n.ty (fun p => some ⟨n.id, p⟩)
    | .identityOp x =>
        match memoGet memo x with
        | some c => buildCont n.ty (fun p => contGet c p)
        | none => Except.error "missing operand"
    | .tupleOp xs =>
        match xs.mapM (memoGet memo) with
        | some cs =>
            buildCont n.ty (fun p =>
              match p with
              | [] => none
              | i :: q => cs[i]?.bind (fun c => contGet c q))
        | none => Except.error "missing operand"
    | .tupleIndex x i =>
        match memoGet memo x with
        | some c => buildCont n.ty (fun p => contGet c (i :: p))
        | none => Except.error "missing operand"
    | .arrayOp xs =>
        match xs.mapM (memoGet memo) with
        | some cs =>
            buildCont n.ty (fun p =>
              match p with
              | [] => none
              | i :: q => cs[i]?.bind (fun c => contGet c q))
        | none => Except.error "missing operand"
    | .arrayIndex x ix =>
        match memoGet memo x with
        | some c =>
            let len := arrLenOf g x
            match litIndex g ix with
            | some k =>
                if k < len then buildCont n.ty (fun p => contGet c (k :: p))
                else
                  buildCont n.ty (fun p =>
                    if len = 0 then some ⟨n.id, p⟩
                    else
                      ((List.range len).mapM (fun j => contGet c (j :: p))).bind
                        (fun cands => NodeSource.joinList cands n.id p))
            | none =>
                buildCont n.ty (fun p =>
                  if len = 0 then some ⟨n.id, p⟩
                  else
                    ((List.range len).mapM (fun j => contGet c (j :: p))).bind
                      (fun cands => NodeSource.joinList cands n.id p))
        | none => Except.error "missing operand"
    | .arrayUpdate x v ix =>
        match memoGet memo x, memoGet memo v with
        | some cb, some cv =>
            let len := arrLenOf g x
            match litIndex g ix with
            | some k =>
                if k < len then
                  buildCont n.ty (fun p =>
                    match p with
                    | [] => none
                    | j :: q =>
                        if j = k then contGet cv q else contGet cb (j :: q))
                else
                  buildCont n.ty (fun p =>
                    match p with
                    | [] => none
                    | j :: q =>
                        (contGet cb (j :: q)).bind (fun b =>
                          (contGet cv q).bind (fun vl =>
                            NodeSource.joinList [b, vl] n.id (j :: q))))
            | none =>
                buildCont n.ty (fun p =>
                  match p with
                  | [] => none
                  | j :: q =>
                      (contGet cb (j :: q)).bind (fun b =>
                        (contGet cv q).bind (fun vl =>
                          NodeSource.joinList [b, vl] n.id (j :: q))))
        | _, _ => Except.error "missing operand"
    | .selectOp _ cases =>
        match cases.mapM (memoGet memo) with
        | some cs =>
            buildCont n.ty (fun p =>
              (cs.mapM (fun c => contGet c p)).bind
                (fun cands => NodeSource.joinList cands n.id p))
        | none => Except.error "missing operand"
    | .chainIndex x q =>
        match memoGet memo x with
        | some c => buildCont n.ty (fun p => contGet c (q ++ p))
        | none => Except.error "missing operand") = Except.ok c := by
    rw [← h]
    rw [analyzeNode]
    rw [hty]
    rfl
  clear h hfix
  cases hop : n.op with
  | param =>
      simp only [hop] at h'
      obtain ⟨hp, hf⟩ := buildCont_get_some h' hcps
      have : NodeSource.mk n.id p = s := Option.some.inj hf
      subst this
      rfl
  | literalOp v =>
      simp only [hop] at h'
      obtain ⟨hp, hf⟩ := buildCont_get_some h' hcps
      have : NodeSource.mk n.id p = s := Option.some.inj hf
      subst this
      rfl
  | otherOp xs =>
      simp only [hop] at h'
      obtain ⟨hp, hf⟩ := buildCont_get_some h' hcps
      have : NodeSource.mk n.id p = s := Option.some.inj hf
      subst this
      rfl
  | identityOp x =>
      simp only [hop] at h'
      cases hmx : memoGet memo x with
      | none => rw [hmx] at h'; exact Except.noConfusion h'
      | some cx =>
          rw [hmx] at h'
          obtain ⟨hp, hf⟩ := buildCont_get_some h' hcps
          simp only [evalOp, hop] at hopv
          have hrel := hmemo x cx hmx p s hf
          rw [hopv] at hrel
          rw [hvn]
          exact hrel
  | chainIndex x q0 =>
      simp only [hop] at h'
      cases hmx : memoGet memo x with
      | none => rw [hmx] at h'; exact Except.noConfusion h'
      | some cx =>
          rw [hmx] at h'
          obtain ⟨hp, hf⟩ := buildCont_get_some h' hcps
          simp only [evalOp, hop] at hopv
          cases hvx : lookupVal (evalList env oracle g []) x with
          | none => rw [hvx] at hopv; exact Option.noConfusion hopv
          | some vx =>
              rw [hvx] at hopv
              simp only [Option.some_bind] at hopv
              rw [hvn]
              simp only [Option.some_bind]
              have := hmemo x cx hmx (q0 ++ p) s hf
              rw [hvx] at this
              simp only [Option.some_bind] at this
              rw [value_sub_append] at this
              rw [hopv] at this
              simp only [Option.some_bind] at this
              exact this
  | tupleIndex x i =>
      simp only [hop] at h'
      cases hmx : memoGet memo x with
      | none => rw [hmx] at h'; exact Except.noConfusion h'
      | some cx =>
          rw [hmx] at h'
          obtain ⟨hp, hf⟩ := buildCont_get_some h' hcps
          simp only [evalOp, hop] at hopv
          cases hvx : lookupVal (evalList env oracle g []) x with
          | none => rw [hvx] at hopv; exact Option.noConfusion hopv
          | some vx =>
              rw [hvx] at hopv
              simp only [Option.some_bind] at hopv
              have hrel := hmemo x cx hmx (i :: p) s hf
              rw [hvx] at hrel
              simp only [Option.some_bind] at hrel
              rw [hvn]
              simp only [Option.some_bind]
              rw [← hrel]
              cases vx with
              | bits b => exact Option.noConfusion hopv
              | arr vs => exact Option.noConfusion hopv
              | tup vs =>
                  change vs[i]? = some vn at hopv
                  simp only [Value.sub, Value.child]
                  rw [hopv]
                  simp
  | tupleOp xs =>
      simp only [hop] at h'
      cases hcs : xs.mapM (memoGet memo) with
      | none => rw [hcs] at h'; exact Except.noConfusion h'
      | some cs =>
          rw [hcs] at h'
          obtain ⟨hp, hf⟩ := buildCont_get_some h' hcps
          cases p with
          | nil => exact Option.noConfusion hf
          | cons i q =>
              simp only at hf
              cases hci : cs[i]? with
              | none => rw [hci] at hf; exact Option.noConfusion hf
              | some ci =>
                  rw [hci] at hf
                  simp only [Option.some_bind] at hf
                  have hf2cs := (mapM_option_eq_some (memoGet memo) xs cs).mp hcs
                  obtain ⟨xi, hxi, hmxi⟩ := forall2_getElem_right hf2cs i ci hci
                  simp only [evalOp, hop] at hopv
                  cases hvs : xs.mapM
                      (fun y => lookupVal (evalList env oracle g []) y) with
                  | none => rw [hvs] at hopv; exact Option.noConfusion hopv
                  | some vs0 =>
                      rw [hvs] at hopv
                      simp only [Option.map_some'] at hopv
                      have hvneq : Value.tup vs0 = vn := Option.some.inj hopv
                      have hf2vs := (mapM_option_eq_some _ xs vs0).mp hvs
                      obtain ⟨vi, hvi, hlvi⟩ := forall2_getElem hf2vs i xi hxi
                      rw [hvn]
                      simp only [Option.some_bind]
                      rw [← hvneq]
                      simp only [Value.sub, Value.child, hvi, Option.some_bind]
                      have := hmemo xi ci hmxi q s hf
                      rw [hlvi] at this
                      simp only [Option.some_bind] at this
                      exact this
  | arrayOp xs =>
      simp only [hop] at h'
      cases hcs : xs.mapM (memoGet memo) with
      | none => rw [hcs] at h'; exact Except.noConfusion h'
      | some cs =>
          rw [hcs] at h'
          obtain ⟨hp, hf⟩ := buildCont_get_some h' hcps
          cases p with
          | nil => exact Option.noConfusion hf
          | cons i q =>
              simp only at hf
              cases hci : cs[i]? with
              | none => rw [hci] at hf; exact Option.noConfusion hf
              | some ci =>
                  rw [hci] at hf
                  simp only [Option.some_bind] at hf
                  have hf2cs := (mapM_option_eq_some (memoGet memo) xs cs).mp hcs
                  obtain ⟨xi, hxi, hmxi⟩ := forall2_getElem_right hf2cs i ci hci
                  simp only [evalOp, hop] at hopv
                  cases hvs : xs.mapM
                      (fun y => lookupVal (evalList env oracle g []) y) with
                  | none => rw [hvs] at hopv; exact Option.noConfusion hopv
                  | some vs0 =>
                      rw [hvs] at hopv
                      simp only [Option.map_some'] at hopv
                      have hvneq : Value.arr vs0 = vn := Option.some.inj hopv
                      have hf2vs := (mapM_option_eq_some _ xs vs0).mp hvs
                      obtain ⟨vi, hvi, hlvi⟩ := forall2_getElem hf2vs i xi hxi
                      rw [hvn]
                      simp only [Option.some_bind]
                      rw [← hvneq]
                      simp only [Value.sub, Value.child, hvi, Option.some_bind]
                      have := hmemo xi ci hmxi q s hf
                      rw [hlvi] at this
                      simp only [Option.some_bind] at this
                      exact this
  | arrayIndex x ix =>
      simp only [hop] at h'
      cases hmx : memoGet memo x with
      | none => rw [hmx] at h'; exact Except.noConfusion h'
      | some cx =>
      rw [hmx] at h'
      simp only [typeOk, hop] at hty
      cases htx : tyOf g x with
      | none => rw [htx] at hty; exact Bool.noConfusion hty
      | some t0 =>
      rw [htx] at hty
      cases t0 with
      | bits w0 => exact Bool.noConfusion hty
      | tup ts0 => exact Bool.noConfusion hty
      | arr t k =>
      cases hix : tyOf g ix with
      | none => rw [hix] at hty; exact Bool.noConfusion hty
      | some ti0 =>
      rw [hix] at hty
      cases ti0 with
      | tup ts1 => exact Bool.noConfusion hty
      | arr t1 k1 => exact Bool.noConfusion hty
      | bits w =>
      simp only [Bool.and_eq_true, beq_iff_eq, decide_eq_true_eq] at hty
      obtain ⟨hteq, hk⟩ := hty
      have hlen : arrLenOf g x = k := by simp [arrLenOf, htx]
      obtain ⟨vb, hvb, hvbt⟩ := vals_operand hwfg hgty henv horacle htx
      obtain ⟨vs, rfl, hvslen, hvsall⟩ := (hasTy_arr_iff vb t k).mp hvbt
      simp only [evalOp, hop] at hopv
      rw [hvb] at hopv
      simp only [Option.some_bind] at hopv
      have hk0 : ¬(k = 0) := by omega
      have hjoin : ∀ (kv : Nat),
          lookupVal (evalList env oracle g []) ix = some (Value.bits kv) →
          (buildCont n.ty (fun p =>
            if k = 0 then some ⟨n.id, p⟩
            else
              ((List.range k).mapM (fun j => contGet cx (j :: p))).bind
                (fun cands => NodeSource.joinList cands n.id p))
            = Except.ok c) →
          (lookupVal (evalList env oracle g []) n.id).bind (Value.sub p) =
            (lookupVal (evalList env oracle g []) s.node).bind
              (Value.sub s.tree_index) := by
        intro kv hvix hbc
        rw [hvix] at hopv
        simp only [Option.some_bind] at hopv
        change vs[min kv (vs.length - 1)]? = some vn at hopv
        obtain ⟨hp, hf⟩ := buildCont_get_some hbc hcps
        rw [if_neg hk0] at hf
        cases hcands : (List.range k).mapM (fun j => contGet cx (j :: p)) with
        | none => rw [hcands] at hf; exact Option.noConfusion hf
        | some cands =>
            rw [hcands] at hf
            simp only [Option.some_bind] at hf
            have hf2 := (mapM_option_eq_some _ _ _).mp hcands
            cases hcd : cands with
            | nil =>
                rw [hcd] at hf
                exact Option.noConfusion hf
            | cons d rest' =>
                rw [hcd] at hf
                rw [hcd] at hf2
                simp only [NodeSource.joinList] at hf
                by_cases hall : ((d :: rest').all (fun s' => s' = d)) = true
                · rw [if_pos hall] at hf
                  have hsd : d = s := Option.some.inj hf
                  subst hsd
                  have hjk : min kv (vs.length - 1) < k := by omega
                  have hrj : (List.range k)[min kv (vs.length - 1)]? =
                      some (min kv (vs.length - 1)) := by
                    simp [List.getElem?_range, hjk]
                  obtain ⟨candj, hcandj, hcontj⟩ :=
                    forall2_getElem hf2 (min kv (vs.length - 1))
                      (min kv (vs.length - 1)) hrj
                  have hcjd : candj = d := by
                    obtain ⟨hlt, hgj⟩ := List.getElem?_eq_some.mp hcandj
                    have hmemc : candj ∈ d :: rest' := hgj ▸ List.getElem_mem hlt
                    have := List.all_eq_true.mp hall candj hmemc
                    simpa using this
                  rw [hcjd] at hcontj
                  have hrel := hmemo x cx hmx (min kv (vs.length - 1) :: p)
                    d hcontj
                  rw [hvb] at hrel
                  simp only [Option.some_bind, Value.sub, Value.child] at hrel
                  rw [hopv] at hrel
                  simp only [Option.some_bind] at hrel
                  rw [hvn]
                  simp only [Option.some_bind]
                  exact hrel
                · rw [if_neg hall] at hf
                  have : NodeSource.mk n.id p = s := Option.some.inj hf
                  subst this
                  rfl
      cases hlit : litIndex g ix with
      | some kl =>
          simp only [hlit, hlen] at h'
          have hlix := @vals_lit g env oracle hwfg hgty ix kl hlit
          by_cases hkl : kl < k
          · rw [if_pos hkl] at h'
            rw [hlix] at hopv
            simp only [Option.some_bind] at hopv
            change vs[min kl (vs.length - 1)]? = some vn at hopv
            obtain ⟨hp, hf⟩ := buildCont_get_some h' hcps
            have hmin : min kl (vs.length - 1) = kl := by omega
            rw [hmin] at hopv
            have hrel := hmemo x cx hmx (kl :: p) s hf
            rw [hvb] at hrel
            simp only [Option.some_bind, Value.sub, Value.child] at hrel
            rw [hopv] at hrel
            simp only [Option.some_bind] at hrel
            rw [hvn]
            simp only [Option.some_bind]
            exact hrel
          · rw [if_neg hkl] at h'
            exact hjoin kl hlix h'
      | none =>
          simp only [hlit, hlen] at h'
          obtain ⟨vix, hvix, hvixt⟩ := vals_operand hwfg hgty henv horacle hix
          obtain ⟨kv, rfl, _⟩ := (hasTy_bits_iff vix w).mp hvixt
          exact hjoin kv hvix h'
  | arrayUpdate x v ix =>
      simp only [hop] at h'
      cases hmx : memoGet memo x with
      | none => rw [hmx] at h'; exact Except.noConfusion h'
      | some cb =>
      cases hmv : memoGet memo v with
      | none => rw [hmx, hmv] at h'; exact Except.noConfusion h'
      | some cv =>
      rw [hmx, hmv] at h'
      simp only [typeOk, hop] at hty
      cases htx : tyOf g x with
      | none => rw [htx] at hty; exact Bool.noConfusion hty
      | some t0 =>
      rw [htx] at hty
      cases t0 with
      | bits w0 => exact Bool.noConfusion hty
      | tup ts0 => exact Bool.noConfusion hty
      | arr t k =>
      cases htv : tyOf g v with
      | none => rw [htv] at hty; exact Bool.noConfusion hty
      | some tv =>
      rw [htv] at hty
      cases hix : tyOf g ix with
      | none => rw [hix] at hty; exact Bool.noConfusion hty
      | some ti0 =>
      rw [hix] at hty
      cases ti0 with
      | tup ts1 => exact Bool.noConfusion hty
      | arr t1 k1 => exact Bool.noConfusion hty
      | bits w =>
      simp only [Bool.and_eq_true, beq_iff_eq] at hty
      obtain ⟨hteq, htveq⟩ := hty
      have hlen : arrLenOf g x = k := by simp [arrLenOf, htx]
      obtain ⟨vb, hvb, hvbt⟩ := vals_operand hwfg hgty henv horacle htx
      obtain ⟨vs, rfl, hvslen, hvsall⟩ := (hasTy_arr_iff vb t k).mp hvbt
      obtain ⟨vv, hvv, hvvt⟩ := vals_operand hwfg hgty henv horacle htv
      simp only [evalOp, hop] at hopv
      rw [hvb, hvv] at hopv
      simp only [Option.some_bind] at hopv
      have hjoinU : ∀ (kv : Nat),
          lookupVal (evalList env oracle g []) ix = some (Value.bits kv) →
          (buildCont n.ty (fun p =>
            match p with
            | [] => none
            | j :: q =>
                (contGet cb (j :: q)).bind (fun b =>
                  (contGet cv q).bind (fun vl =>
                    NodeSource.joinList [b, vl] n.id (j :: q))))
            = Except.ok c) →
          (lookupVal (evalList env oracle g []) n.id).bind (Value.sub p) =
            (lookupVal (evalList env oracle g []) s.node).bind
              (Value.sub s.tree_index) := by
        intro kv hvix hbc
        rw [hvix] at hopv
        simp only [Option.some_bind] at hopv
        change some (Value.arr (if kv < vs.length then vs.set kv vv else vs))
          = some vn at hopv
        have hvneq := Option.some.inj hopv
        obtain ⟨hp, hf⟩ := buildCont_get_some hbc hcps
        cases p with
        | nil => exact Option.noConfusion hf
        | cons j q =>
            simp only at hf
            cases hfb : contGet cb (j :: q) with
            | none => rw [hfb] at hf; exact Option.noConfusion hf
            | some b =>
            rw [hfb] at hf
            simp only [Option.some_bind] at hf
            cases hfv : contGet cv q with
            | none => rw [hfv] at hf; exact Option.noConfusion hf
            | some vl =>
            rw [hfv] at hf
            simp only [Option.some_bind] at hf
            have hjl : NodeSource.joinList [b, vl] n.id (j :: q) =
                if vl = b then some b else some ⟨n.id, j :: q⟩ := by
              by_cases hbv : vl = b <;> simp [NodeSource.joinList, hbv]
            rw [hjl] at hf
            by_cases hbv : vl = b
            · rw [if_pos hbv] at hf
              have hsb : b = s := Option.some.inj hf
              subst hsb
              rw [← hteq] at hp
              obtain ⟨j', q', hj'k, hpe, hq'⟩ := (mem_leafPaths_arr t k _).mp hp
              obtain ⟨hjj, hqq⟩ := List.cons.inj hpe
              subst hjj
              subst hqq
              have hjlen : j < vs.length := by omega
              have hrel_b := hmemo x cb hmx (j :: q) b hfb
              rw [hvb] at hrel_b
              simp only [Option.some_bind, Value.sub, Value.child] at hrel_b
              have hrel_v := hmemo v cv hmv q vl hfv
              rw [hvv] at hrel_v
              simp only [Option.some_bind] at hrel_v
              rw [hbv] at hrel_v
              rw [hvn]
              simp only [Option.some_bind]
              rw [← hvneq]
              simp only [Value.sub, Value.child]
              by_cases hkvlen : kv < vs.length
              · rw [if_pos hkvlen]
                by_cases hjkv : j = kv
                · subst hjkv
                  rw [List.getElem?_set_self hjlen]
                  simp only [Option.some_bind]
                  exact hrel_v
                · rw [List.getElem?_set_ne (fun hc => hjkv hc.symm)]
                  exact hrel_b
              · rw [if_neg hkvlen]
                exact hrel_b
            · rw [if_neg hbv] at hf
              have : NodeSource.mk n.id (j :: q) = s := Option.some.inj hf
              subst this
              rfl
      cases hlit : litIndex g ix with
      | some kl =>
          simp only [hlit, hlen] at h'
          have hlix := @vals_lit g env oracle hwfg hgty ix kl hlit
          by_cases hkl : kl < k
          · rw [if_pos hkl] at h'
            rw [hlix] at hopv
            simp only [Option.some_bind] at hopv
            change some (Value.arr
              (if kl < vs.length then vs.set kl vv else vs)) = some vn at hopv
            have hklvs : kl < vs.length := by omega
            rw [if_pos hklvs] at hopv
            have hvneq := Option.some.inj hopv
            obtain ⟨hp, hf⟩ := buildCont_get_some h' hcps
            cases p with
            | nil => exact Option.noConfusion hf
            | cons j q =>
                simp only at hf
                rw [hvn]
                simp only [Option.some_bind]
                rw [← hvneq]
                simp only [Value.sub, Value.child]
                by_cases hjk : j = kl
                · rw [if_pos hjk] at hf
                  have hrel := hmemo v cv hmv q s hf
                  rw [hvv] at hrel
                  simp only [Option.some_bind] at hrel
                  subst hjk
                  rw [List.getElem?_set_self hklvs]
                  simp only [Option.some_bind]
                  exact hrel
                · rw [if_neg hjk] at hf
                  have hrel := hmemo x cb hmx (j :: q) s hf
                  rw [hvb] at hrel
                  simp only [Option.some_bind, Value.sub, Value.child] at hrel
                  rw [List.getElem?_set_ne (fun hc => hjk hc.symm)]
                  exact hrel
          · rw [if_neg hkl] at h'
            exact hjoinU kl hlix h'
      | none =>
          simp only [hlit, hlen] at h'
          obtain ⟨vix, hvix, hvixt⟩ := vals_operand hwfg hgty henv horacle hix
          obtain ⟨kv, rfl, _⟩ := (hasTy_bits_iff vix w).mp hvixt
          exact hjoinU kv hvix h'
  | selectOp sel cases_ =>
      simp only [hop] at h'
      cases hcs : cases_.mapM (memoGet memo) with
      | none => rw [hcs] at h'; exact Except.noConfusion h'
      | some cs =>
      rw [hcs] at h'
      simp only [typeOk, hop] at hty
      cases hsel : tyOf g sel with
      | none => rw [hsel] at hty; exact Bool.noConfusion hty
      | some ts0 =>
      rw [hsel] at hty
      cases ts0 with
      | tup ts1 => exact Bool.noConfusion hty
      | arr t1 k1 => exact Bool.noConfusion hty
      | bits w =>
      simp only [Bool.and_eq_true, List.all_eq_true, beq_iff_eq] at hty
      obtain ⟨hne, hall_ty⟩ := hty
      obtain ⟨vsel, hvsel, hvselt⟩ := vals_operand hwfg hgty henv horacle hsel
      obtain ⟨kv, rfl, hkv2⟩ := (hasTy_bits_iff vsel w).mp hvselt
      simp only [evalOp, hop] at hopv
      rw [hvsel] at hopv
      simp only [Option.some_bind] at hopv
      cases hcvs : cases_.mapM
          (fun y => lookupVal (evalList env oracle g []) y) with
      | none => rw [hcvs] at hopv; exact Option.noConfusion hopv
      | some cvs =>
      rw [hcvs] at hopv
      simp only [Option.some_bind] at hopv
      change cvs[min kv (cvs.length - 1)]? = some vn at hopv
      obtain ⟨hp, hf⟩ := buildCont_get_some h' hcps
      cases hcands : cs.mapM (fun c0 => contGet c0 p) with
      | none => rw [hcands] at hf; exact Option.noConfusion hf
      | some cands =>
      rw [hcands] at hf
      simp only [Option.some_bind] at hf
      have hf2cs := (mapM_option_eq_some _ _ _).mp hcs
      have hf2cands := (mapM_option_eq_some _ _ _).mp hcands
      have hf2cvs := (mapM_option_eq_some _ _ _).mp hcvs
      cases hcd : cands with
      | nil => rw [hcd] at hf; exact Option.noConfusion hf
      | cons d rest' =>
      rw [hcd] at hf
      rw [hcd] at hf2cands
      simp only [NodeSource.joinList] at hf
      by_cases hall : ((d :: rest').all (fun s' => s' = d)) = true
      · rw [if_pos hall] at hf
        have hsd : d = s := Option.some.inj hf
        subst hsd
        obtain ⟨xj, hxj, hlxj⟩ := forall2_getElem_right hf2cvs
          (min kv (cvs.length - 1)) vn hopv
        obtain ⟨cj, hcj, hmcj⟩ := forall2_getElem hf2cs
          (min kv (cvs.length - 1)) xj hxj
        obtain ⟨candj, hcandj, hcontj⟩ := forall2_getElem hf2cands
          (min kv (cvs.length - 1)) cj hcj
        have hcjd : candj = d := by
          obtain ⟨hlt, hgj⟩ := List.getElem?_eq_some.mp hcandj
          have hmemc : candj ∈ d :: rest' := hgj ▸ List.getElem_mem hlt
          have := List.all_eq_true.mp hall candj hmemc
          simpa using this
        rw [hcjd] at hcontj
        have hrel := hmemo xj cj hmcj p d hcontj
        rw [hlxj] at hrel
        simp only [Option.some_bind] at hrel
        rw [hvn]
        simp only [Option.some_bind]
        exact hrel
      · rw [if_neg hall] at hf
        have : NodeSource.mk n.id p = s := Option.some.inj hf
        subst this
        rfl

theorem nodeSourceBeq_iff (a b : NodeSource) : (a == b) = true ↔ a = b := by
  constructor
  · intro h
    have hb : NodeSource.beq a b = true := h
    simp only [NodeSource.beq, Bool.and_eq_true, beq_iff_eq] at hb
    cases a; cases b; simp_all
  · intro h
    subst h
    show NodeSource.beq a a = true
    simp [NodeSource.beq]

theorem optNodeSourceBeq_iff (a b : Option NodeSource) : (a == b) = true ↔ a = b := by
  cases a with
  | none => cases b <;> simp
  | some x =>
      cases b with
      | none => simp
      | some y =>
          rw [Option.some_beq_some]
          rw [nodeSourceBeq_iff]
          simp

theorem evalList_mem_ids (env : Nat → Value) (oracle : Nat → List Value → Value) :
    ∀ (todo : List Node) (acc : List (Nat × Value)) (x : Nat) (v : Value),
      lookupVal (evalList env oracle todo acc) x = some v →
      (∃ e ∈ acc, e.1 = x) ∨ ∃ m ∈ todo, m.id = x := by
  intro todo
  induction todo with
  | nil =>
      intro acc x v h
      left
      simp only [evalList] at h
      simp only [lookupVal, Option.map_eq_some'] at h
      obtain ⟨e, he, _⟩ := h
      refine ⟨e, List.mem_of_find?_eq_some he, ?_⟩
      have := List.find?_some he
      simpa using this
  | cons m rest ih =>
      intro acc x v h
      simp only [evalList] at h
      cases hev : evalNode (lookupVal acc) env oracle m with
      | some w =>
          rw [hev] at h
          rcases ih (acc ++ [(m.id, w)]) x v h with ⟨e, he, hex⟩ | ⟨k, hk, hkx⟩
          · rcases List.mem_append.mp he with h1 | h2
            · exact Or.inl ⟨e, h1, hex⟩
            · right
              have : e = (m.id, w) := by simpa using h2
              subst this
              exact ⟨m, List.mem_cons_self _ _, hex⟩
          · exact Or.inr ⟨k, List.mem_cons_of_mem _ hk, hkx⟩
      | none =>
          rw [hev] at h
          rcases ih acc x v h with h1 | ⟨k, hk, hkx⟩
          · exact Or.inl h1
          · exact Or.inr ⟨k, List.mem_cons_of_mem _ hk, hkx⟩

theorem leafPaths_subtreeTy :
    ∀ (ty : Ty) (p : List Nat), p ∈ ty.leafPaths →
      ∃ w, Ty.subtreeTy p ty = some (Ty.bits w)
  | .bits w, p => by
      intro hp
      rw [mem_leafPaths_bits] at hp
      subst hp
      exact ⟨w, rfl⟩
  | .tup ts, p => by
      intro hp
      obtain ⟨i, t, q, hi, rfl, hq⟩ := (mem_leafPaths_tup ts p).mp hp
      obtain ⟨w, hw⟩ := leafPaths_subtreeTy t q hq
      refine ⟨w, ?_⟩
      simp only [Ty.subtreeTy, Ty.child, hi, Option.some_bind]
      exact hw
  | .arr t n, p => by
      intro hp
      obtain ⟨j, q, hj, rfl, hq⟩ := (mem_leafPaths_arr t n p).mp hp
      obtain ⟨w, hw⟩ := leafPaths_subtreeTy t q hq
      refine ⟨w, ?_⟩
      simp only [Ty.subtreeTy, Ty.child, if_pos hj, Option.some_bind]
      exact hw
termination_by ty _ => sizeOf ty
decreasing_by
  · simp_wf
    have hmem : t ∈ ts := by
      have h2 := List.getElem?_eq_some.mp hi
      obtain ⟨hlt, hget⟩ := h2
      exact hget ▸ List.getElem_mem hlt
    have := List.sizeOf_lt_of_mem hmem
    omega
  · simp_wf
    omega

theorem foldl_max_ge_init : ∀ (l : List Node) (a : Nat),
    a ≤ l.foldl (fun acc n => max acc n.id) a := by
  intro l
  induction l with
  | nil => intro a; exact Nat.le_refl a
  | cons m rest ih =>
      intro a
      calc a ≤ max a m.id := Nat.le_max_left _ _
        _ ≤ rest.foldl (fun acc n => max acc n.id) (max a m.id) := ih _

theorem maxId_ge : ∀ {g : List Node} {m : Node}, m ∈ g → m.id ≤ maxId g := by
  have haux : ∀ (l : List Node) (a : Nat) (m : Node), m ∈ l →
      m.id ≤ l.foldl (fun acc n => max acc n.id) a := by
    intro l
    induction l with
    | nil => intro a m hm; simp at hm
    | cons k rest ih =>
        intro a m hm
        rcases List.mem_cons.mp hm with heq | hm'
        · subst heq
          calc m.id ≤ max a m.id := Nat.le_max_right _ _
            _ ≤ rest.foldl (fun acc n => max acc n.id) (max a m.id) :=
              foldl_max_ge_init rest _
        · exact ih (max a k.id) m hm'
  intro g m hm
  exact haux g 0 m hm

theorem wf_id_unique {g : List Node} (hwf : wf g = true) {n0 n1 : Node}
    (h0 : n0 ∈ g) (h1 : n1 ∈ g) (hid : n0.id = n1.id) : n0 = n1 := by
  have hf0 := wf_findNode hwf h0
  have hf1 := wf_findNode hwf h1
  rw [hid] at hf0
  rw [hf0] at hf1
  exact Option.some.inj hf1

theorem applySub_cons (k t : Nat) (sub : List (Nat × Nat)) (x : Nat) :
    applySub ((k, t) :: sub) x = if k = x then t else applySub sub x := by
  by_cases h : k = x
  · subst h; simp [applySub, List.find?_cons]
  · simp [applySub, List.find?_cons, h]

theorem applySub_spec (sub : List (Nat × Nat)) (x : Nat) :
    (∃ e ∈ sub, e.1 = x ∧ applySub sub x = e.2) ∨
      ((∀ e ∈ sub, e.1 ≠ x) ∧ applySub sub x = x) := by
  induction sub with
  | nil => right; exact ⟨fun e he => by simp at he, rfl⟩
  | cons e0 rest ih =>
      by_cases h : e0.1 = x
      · left
        refine ⟨e0, List.mem_cons_self _ _, h, ?_⟩
        simp [applySub, List.find?_cons, h]
      · have hstep : applySub (e0 :: rest) x = applySub rest x := by
          simp only [applySub, List.find?_cons]
          simp only [show (decide (e0.1 = x)) = false from by simp [h]]
        rcases ih with ⟨e, he, hex, hax⟩ | ⟨hall, hax⟩
        · left
          exact ⟨e, List.mem_cons_of_mem _ he, hex, hstep ▸ hax⟩
        · right
          refine ⟨?_, hstep ▸ hax⟩
          intro e he
          rcases List.mem_cons.mp he with heq | he'
          · subst heq; exact h
          · exact hall e he'

theorem mapM_option_map {α β γ : Type} (σ : α → β) (f : β → Option γ) :
    ∀ (l : List α), (l.map σ).mapM f = l.mapM (fun x => f (σ x)) := by
  intro l
  induction l with
  | nil => rfl
  | cons a rest ih =>
      rw [List.map_cons, List.mapM_cons, List.mapM_cons, ih]

/-- Congruence for evaluating an operand-substituted node against the
original node under corresponding lookups. -/
theorem evalNode_subst_congr {look1 look2 : Nat → Option Value}
    {env : Nat → Value} {oracle : Nat → List Value → Value} {n : Node}
    {σ : Nat → Nat}
    (h : ∀ x ∈ n.op.operands, look1 (σ x) = look2 x) :
    evalNode look1 env oracle ⟨n.id, n.name, n.ty, n.op.mapOperands σ⟩ =
      evalNode look2 env oracle n := by
  simp only [evalNode]
  have : evalOp look1 env oracle ⟨n.id, n.name, n.ty, n.op.mapOperands σ⟩ =
      evalOp look2 env oracle n := by
    cases hop : n.op with
    | param => simp [evalOp, Op.mapOperands, hop]
    | literalOp v => simp [evalOp, Op.mapOperands, hop]
    | identityOp x =>
        simp only [evalOp, Op.mapOperands, hop]
        exact h x (by simp [hop, Op.operands])
    | tupleOp xs =>
        simp only [evalOp, Op.mapOperands, hop]
        rw [mapM_option_map]
        rw [mapM_option_congr xs
          (fun a ha => h a (by simp [hop, Op.operands, ha]))]
    | tupleIndex x i =>
        simp only [evalOp, Op.mapOperands, hop]
        rw [h x (by simp [hop, Op.operands])]
    | arrayOp xs =>
        simp only [evalOp, Op.mapOperands, hop]
        rw [mapM_option_map]
        rw [mapM_option_congr xs
          (fun a ha => h a (by simp [hop, Op.operands, ha]))]
    | arrayIndex x ix =>
        simp only [evalOp, Op.mapOperands, hop]
        rw [h x (by simp [hop, Op.operands]), h ix (by simp [hop, Op.operands])]
    | arrayUpdate x v ix =>
        simp only [evalOp, Op.mapOperands, hop]
        rw [h x (by simp [hop, Op.operands]), h v (by simp [hop, Op.operands]),
          h ix (by simp [hop, Op.operands])]
    | selectOp sel cases_ =>
        simp only [evalOp, Op.mapOperands, hop]
        rw [h sel (by simp [hop, Op.operands])]
        rw [mapM_option_map]
        rw [mapM_option_congr cases_
          (fun a ha => h a (by simp [hop, Op.operands, ha]))]
    | chainIndex x q =>
        simp only [evalOp, Op.mapOperands, hop]
        rw [h x (by simp [hop, Op.operands])]
    | otherOp xs =>
        simp only [evalOp, Op.mapOperands, hop]
        rw [mapM_option_map]
        rw [mapM_option_congr xs
          (fun a ha => h a (by simp [hop, Op.operands, ha]))]
  rw [this]

/-- Inversion of a positive rewrite decision. -/
theorem decideRewrite_inv {gcur : List Node} {memo : List (Nat × Cont)}
    {n : Node} {M : Nat} {pre : List Nat}
    (h : decideRewrite gcur memo n = some (M, pre)) :
    ∃ c0 tM,
      memoGet memo n.id = some c0 ∧
      n.ty.leafPaths ≠ [] ∧
      M ≠ n.id ∧
      (∀ p ∈ n.ty.leafPaths, contGet c0 p = some ⟨M, pre ++ p⟩) ∧
      tyOf gcur M = some tM ∧
      Ty.subtreeTy pre tM = some n.ty := by
  simp only [decideRewrite] at h
  split at h
  · exact Option.noConfusion h
  rename_i c0 hm
  split at h
  · exact Option.noConfusion h
  rename_i Mp M0 pre0 hfc
  split at h
  · exact Option.noConfusion h
  rename_i tM hty
  split at h
  · exact Option.noConfusion h
  rename_i tsub hsub
  split at h
  case isFalse => exact Option.noConfusion h
  rename_i hcond
  have hMp : (M0, pre0) = (M, pre) := Option.some.inj h
  have hM0 : M = M0 := (congrArg Prod.fst hMp).symm
  have hpre0 : pre = pre0 := (congrArg Prod.snd hMp).symm
  subst hM0
  subst hpre0
  simp only [findCommonSource] at hfc
  split at hfc
  · exact Option.noConfusion hfc
  rename_i p0 prest hlp
  split at hfc
  · exact Option.noConfusion hfc
  rename_i s0 hs0
  split at hfc
  · exact Option.noConfusion hfc
  rename_i hself
  split at hfc
  · exact Option.noConfusion hfc
  rename_i pre1 hds
  split at hfc
  case isFalse => exact Option.noConfusion hfc
  rename_i hallb
  have hps : (s0.node, pre1) = (M, pre) := Option.some.inj hfc
  have hMn : s0.node = M := congrArg Prod.fst hps
  have hpre1 : pre1 = pre := congrArg Prod.snd hps
  subst hMn
  subst hpre1
  refine ⟨c0, tM, hm, by rw [hlp]; simp,
    fun hc => hself (hc ▸ rfl), ?_, hty, hcond.1 ▸ hsub⟩
  intro p hp
  have := List.all_eq_true.mp hallb p hp
  exact (optNodeSourceBeq_iff _ _).mp (by simpa using this)

/-- Lifting of per-node provenance soundness over a whole phase-1 sweep:
an analysis run started from a sound memo yields a sound memo. -/
theorem analyzeList_sound {g : List Node} {env : Nat → Value}
    {oracle : Nat → List Value → Value}
    (hwfg : wf g = true) (hgty : ∀ k ∈ g, typeOk g k = true)
    (henv : envOk g env) (horacle : oracleOk g oracle) :
    ∀ (todo : List Node) (memo out : List (Nat × Cont)),
      (∀ m ∈ todo, m ∈ g) →
      (∀ id c0, memoGet memo id = some c0 → ∀ p s, contGet c0 p = some s →
        (lookupVal (evalList env oracle g []) id).bind (Value.sub p) =
          (lookupVal (evalList env oracle g []) s.node).bind
            (Value.sub s.tree_index)) →
      analyzeList g todo memo = Except.ok out →
      ∀ id c0, memoGet out id = some c0 → ∀ p s, contGet c0 p = some s →
        (lookupVal (evalList env oracle g []) id).bind (Value.sub p) =
          (lookupVal (evalList env oracle g []) s.node).bind
            (Value.sub s.tree_index) := by
  intro todo
  induction todo with
  | nil =>
      intro memo out _ hmemo h
      rw [analyzeList] at h
      cases Except.ok.inj h
      exact hmemo
  | cons m rest ih =>
      intro memo out hsub hmemo h
      rw [analyzeList] at h
      cases hm : analyzeNode g memo m with
      | error e => rw [hm] at h; exact Except.noConfusion h
      | ok c =>
          rw [hm] at h
          have hnode := analyzeNode_sound hwfg hgty henv horacle
            (hsub m (List.mem_cons_self _ _)) hmemo hm
          refine ih (memo ++ [(m.id, c)]) out
            (fun k hk => hsub k (List.mem_cons_of_mem _ hk)) ?_ h
          intro id c0 hc0 p s hps
          rw [memoGet_append] at hc0
          cases hget : memoGet memo id with
          | some c1 =>
              simp only [hget] at hc0
              have : c1 = c0 := Option.some.inj hc0
              subst this
              exact hmemo id c1 hget p s hps
          | none =>
              simp only [hget] at hc0
              rw [memoGet_singleton] at hc0
              by_cases hid : m.id = id
              · rw [if_pos hid] at hc0
                have : c = c0 := Option.some.inj hc0
                subst this
                subst hid
                exact hnode p s hps
              · rw [if_neg hid] at hc0
                exact Option.noConfusion hc0

/-- Phase-1 soundness: the memo computed by `analyze` relates each node's
container leaves to the actual runtime values of the graph. -/
theorem analyze_sound {g : List Node} {env : Nat → Value}
    {oracle : Nat → List Value → Value} {memo : List (Nat × Cont)}
    (hwfg : wf g = true) (hgty : ∀ k ∈ g, typeOk g k = true)
    (henv : envOk g env) (horacle : oracleOk g oracle)
    (h : analyze g = Except.ok memo) :
    ∀ id c0, memoGet memo id = some c0 → ∀ p s, contGet c0 p = some s →
      (lookupVal (evalList env oracle g []) id).bind (Value.sub p) =
        (lookupVal (evalList env oracle g []) s.node).bind
          (Value.sub s.tree_index) :=
  analyzeList_sound hwfg hgty henv horacle g [] memo (fun _ hm => hm)
    (fun id c0 hc0 => by rw [show memoGet [] id = none from rfl] at hc0
                         exact Option.noConfusion hc0) h

theorem lookupVal_singleton (a : Nat) (v : Value) (x : Nat) :
    lookupVal [(a, v)] x = if a = x then some v else none := by
  show (([(a, v)]).find? (fun e => e.1 = x)).map Prod.snd = _
  rw [List.find?_cons]
  by_cases h : a = x
  · simp [h]
  · simp only [h]
    simp [lookupVal, h]

theorem lookupVal_snoc_ne (W : List (Nat × Value)) (a : Nat) (v : Value)
    (x : Nat) (h : a ≠ x) : lookupVal (W ++ [(a, v)]) x = lookupVal W x := by
  rw [lookupVal_append]
  cases hx : lookupVal W x with
  | some w => rfl
  | none =>
      show lookupVal [(a, v)] x = none
      rw [lookupVal_singleton, if_neg h]

theorem lookupVal_snoc_none (W : List (Nat × Value)) (a : Nat) (v : Value)
    (h : lookupVal W a = none) : lookupVal (W ++ [(a, v)]) a = some v := by
  rw [lookupVal_append, h]
  show lookupVal [(a, v)] a = some v
  rw [lookupVal_singleton, if_pos rfl]

/-- The semantic core of a rewrite: when a node's whole container points at
one origin `M` through one fixed prefix, `M`'s runtime value exists and its
`pre`-subtree is exactly the node's runtime value. -/
theorem rewrite_core {g : List Node} {env : Nat → Value}
    {oracle : Nat → List Value → Value} {memo : List (Nat × Cont)}
    (hwfg : wf g = true) (hgty : ∀ k ∈ g, typeOk g k = true)
    (henv : envOk g env) (horacle : oracleOk g oracle)
    (hmemoOk : ∀ id c0, memoGet memo id = some c0 →
      ∀ p s, contGet c0 p = some s →
      (lookupVal (evalList env oracle g []) id).bind (Value.sub p) =
        (lookupVal (evalList env oracle g []) s.node).bind
          (Value.sub s.tree_index))
    {n : Node} (hng : n ∈ g) {c0 : Cont} {M : Nat} {pre : List Nat}
    (hc0 : memoGet memo n.id = some c0)
    (hne : n.ty.leafPaths ≠ [])
    (hall : ∀ p ∈ n.ty.leafPaths, contGet c0 p = some ⟨M, pre ++ p⟩) :
    ∃ vn vM n0, n0 ∈ g ∧ n0.id = M ∧
      lookupVal (evalList env oracle g []) n.id = some vn ∧
      Value.hasTy vn n.ty = true ∧
      lookupVal (evalList env oracle g []) M = some vM ∧
      Value.hasTy vM n0.ty = true ∧
      (Ty.subtreeTy pre n0.ty = some n.ty → Value.sub pre vM = some vn) := by
  obtain ⟨vn, hvn, hvnT⟩ := evalList_total env oracle hwfg hgty henv horacle n hng
  obtain ⟨p0, hp0⟩ : ∃ p0, p0 ∈ n.ty.leafPaths := by
    cases hlp : n.ty.leafPaths with
    | nil => exact absurd hlp hne
    | cons q qs => exact ⟨q, List.mem_cons_self _ _⟩
  have hrel0 := hmemoOk n.id c0 hc0 p0 ⟨M, pre ++ p0⟩ (hall p0 hp0)
  rw [hvn] at hrel0
  simp only [Option.some_bind] at hrel0
  obtain ⟨w0, hsub0⟩ := leafPaths_subtreeTy n.ty p0 hp0
  obtain ⟨l0, hl0, _⟩ := hasTy_sub hvnT hsub0
  rw [hl0] at hrel0
  cases hvM : lookupVal (evalList env oracle g []) M with
  | none =>
      rw [hvM] at hrel0
      simp at hrel0
  | some vM =>
      rw [hvM] at hrel0
      obtain ⟨n0, hn0g, hn0id⟩ :
          ∃ n0 ∈ g, n0.id = M := by
        rcases evalList_mem_ids env oracle g [] M vM hvM with ⟨e, he, _⟩ | h2
        · simp at he
        · exact h2
      obtain ⟨v', hv', hv'T⟩ :=
        evalList_total env oracle hwfg hgty henv horacle n0 hn0g
      rw [hn0id] at hv'
      have hveq : vM = v' := by
        rw [hvM] at hv'
        exact Option.some.inj hv'
      have hvMT : Value.hasTy vM n0.ty = true := by rw [hveq]; exact hv'T
      refine ⟨vn, vM, n0, hn0g, hn0id, hvn, hvnT, rfl, hvMT, ?_⟩
      intro hsubTy
      obtain ⟨w, hw, hwT⟩ := hasTy_sub hvMT hsubTy
      have hwvn : w = vn := by
        refine value_ext n.ty w vn hwT hvnT ?_
        intro p hp
        have hrelp := hmemoOk n.id c0 hc0 p ⟨M, pre ++ p⟩ (hall p hp)
        rw [hvn, hvM] at hrelp
        simp only [Option.some_bind] at hrelp
        rw [value_sub_append pre p vM] at hrelp
        rw [hw] at hrelp
        simp only [Option.some_bind] at hrelp
        exact hrelp.symm
      rw [hwvn] at hw
      exact hw

/-- Driver-phase soundness invariant induction: processing the remaining
nodes preserves the meaning of the (substituted) return id. -/
theorem rewriteAll_sound {g : List Node} {env : Nat → Value}
    {oracle : Nat → List Value → Value} {memo : List (Nat × Cont)}
    (hwfg : wf g = true) (hgty : ∀ k ∈ g, typeOk g k = true)
    (henv : envOk g env) (horacle : oracleOk g oracle)
    (hmemoOk : ∀ id c0, memoGet memo id = some c0 →
      ∀ p s, contGet c0 p = some s →
      (lookupVal (evalList env oracle g []) id).bind (Value.sub p) =
        (lookupVal (evalList env oracle g []) s.node).bind
          (Value.sub s.tree_index)) :
    ∀ (todo done : List Node) (sub : List (Nat × Nat)) (seen : List Nat)
      (ret nid : Nat) (ch : Bool),
      wfAux seen todo = true →
      (∀ m ∈ todo, m ∈ g) →
      (∀ x ∈ seen, (∃ m ∈ done, m.id = x) ∨ ∃ e ∈ sub, e.1 = x) →
      (∀ e ∈ sub, e.1 ∈ seen) →
      (∀ e ∈ sub, ∀ m ∈ done, e.1 ≠ m.id) →
      (∀ e ∈ sub, ∃ m ∈ done, m.id = e.2) →
      (∀ x ∈ seen, ∃ n0 ∈ g, n0.id = x) →
      (∀ m ∈ done, (m.id ≤ maxId g ∧ m.id ∈ seen ∧
        ∃ n0 ∈ g, n0.id = m.id ∧ n0.ty = m.ty) ∨ maxId g < m.id) →
      maxId g < nid →
      (∀ m ∈ done, m.id < nid) →
      (∀ n0 ∈ g, n0.id ∈ seen ∨ ∃ m ∈ todo, m.id = n0.id) →
      (∀ x, ¬(∃ m ∈ done, m.id = x) →
        lookupVal (evalList env oracle done []) x = none) →
      (∀ n0 ∈ g, n0.id ∈ seen → (¬∃ e ∈ sub, e.1 = n0.id) →
        lookupVal (evalList env oracle done []) n0.id =
          lookupVal (evalList env oracle g []) n0.id) →
      (∀ e ∈ sub, lookupVal (evalList env oracle done []) e.2 =
        lookupVal (evalList env oracle g []) e.1) →
      (∃ n0 ∈ g, n0.id = ret) →
      lookupVal
          (evalList env oracle (rewriteAll memo done todo sub ret nid ch).1 [])
          (rewriteAll memo done todo sub ret nid ch).2.1 =
        lookupVal (evalList env oracle g []) ret := by
  intro todo
  induction todo with
  | nil =>
      intro done sub seen ret nid ch hw hsubg hB1 hB2 hB10 hB3 hseeng hdoneP
        hnidg hdonelt hB12 hS3 hS1 hS2 hret
      have hrw : rewriteAll memo done [] sub ret nid ch =
          (done, applySub sub ret, ch) := by
        simp only [rewriteAll]
      rw [hrw]
      show lookupVal (evalList env oracle done []) (applySub sub ret) =
        lookupVal (evalList env oracle g []) ret
      obtain ⟨r0, hr0g, hr0id⟩ := hret
      have hrs : ret ∈ seen := by
        rcases hB12 r0 hr0g with h | ⟨m, hm, _⟩
        · rw [← hr0id]; exact h
        · simp at hm
      rcases applySub_spec sub ret with ⟨e, he, hex, hax⟩ | ⟨hnk, hax⟩
      · rw [hax, hS2 e he, hex]
      · rw [hax]
        have hres := hS1 r0 hr0g (by rw [hr0id]; exact hrs)
          (by rintro ⟨e, he, hee⟩; exact hnk e he (hee.trans hr0id))
        rw [← hr0id]
        exact hres
  | cons n rest ih =>
      intro done sub seen ret nid ch hw hsubg hB1 hB2 hB10 hB3 hseeng hdoneP
        hnidg hdonelt hB12 hS3 hS1 hS2 hret
      obtain ⟨hops, hid, hwf'⟩ := wfAux_step hw
      have hng : n ∈ g := hsubg n (List.mem_cons_self _ _)
      have hsubg' : ∀ m ∈ rest, m ∈ g :=
        fun m hm => hsubg m (List.mem_cons_of_mem _ hm)
      have hnle : n.id ≤ maxId g := maxId_ge hng
      have hnotdone : ¬ ∃ m ∈ done, m.id = n.id := by
        rintro ⟨m, hm, hmid⟩
        rcases hdoneP m hm with ⟨_, hmseen, _⟩ | hbig
        · exact hid (hmid ▸ hmseen)
        · omega
      have hWn : lookupVal (evalList env oracle done []) n.id = none :=
        hS3 n.id hnotdone
      have hoper : ∀ x ∈ n.op.operands,
          lookupVal (evalList env oracle done []) (applySub sub x) =
            lookupVal (evalList env oracle g []) x := by
        intro x hx
        have hxseen : x ∈ seen := hops x hx
        rcases applySub_spec sub x with ⟨e, he, hex, hax⟩ | ⟨hnk, hax⟩
        · rw [hax, hS2 e he, hex]
        · rw [hax]
          obtain ⟨n0, hn0g, hn0id⟩ := hseeng x hxseen
          have hres := hS1 n0 hn0g (by rw [hn0id]; exact hxseen)
            (by rintro ⟨e, he, hee⟩; exact hnk e he (hee.trans hn0id))
          rw [← hn0id]
          exact hres
      have hval : evalNode (lookupVal (evalList env oracle done []))
          env oracle ⟨n.id, n.name, n.ty, n.op.mapOperands (applySub sub)⟩ =
          evalNode (fun y => lookupVal (evalList env oracle g []) y)
            env oracle n :=
        evalNode_subst_congr hoper
      have hVn : lookupVal (evalList env oracle g []) n.id =
          evalNode (lookupVal (evalList env oracle done []))
            env oracle ⟨n.id, n.name, n.ty, n.op.mapOperands (applySub sub)⟩ :=
        (vals_fix hwfg hng).trans hval.symm
      cases hdec : decideRewrite
          (done ++ [⟨n.id, n.name, n.ty, n.op.mapOperands (applySub sub)⟩])
          memo ⟨n.id, n.name, n.ty, n.op.mapOperands (applySub sub)⟩ with
      | none =>
          have hrw : rewriteAll memo done (n :: rest) sub ret nid ch =
              rewriteAll memo
                (done ++ [⟨n.id, n.name, n.ty, n.op.mapOperands (applySub sub)⟩])
                rest sub ret nid ch := by
            simp only [rewriteAll, hdec]
          rw [hrw]
          have hWd : ∀ x, lookupVal (evalList env oracle
              (done ++ [⟨n.id, n.name, n.ty,
                n.op.mapOperands (applySub sub)⟩]) []) x =
              if n.id = x then lookupVal (evalList env oracle g []) n.id
              else lookupVal (evalList env oracle done []) x := by
            intro x
            rw [evalList_append]
            cases hev : evalNode (lookupVal (evalList env oracle done []))
                env oracle
                ⟨n.id, n.name, n.ty, n.op.mapOperands (applySub sub)⟩ with
            | some v =>
                have hW1 : evalList env oracle
                    [(⟨n.id, n.name, n.ty,
                      n.op.mapOperands (applySub sub)⟩ : Node)]
                    (evalList env oracle done []) =
                    evalList env oracle done [] ++ [(n.id, v)] := by
                  simp only [evalList, hev]
                rw [hW1]
                by_cases hx : n.id = x
                · subst hx
                  rw [if_pos rfl, lookupVal_snoc_none _ _ _ hWn, hVn, hev]
                · rw [if_neg hx, lookupVal_snoc_ne _ _ _ _ hx]
            | none =>
                have hW1 : evalList env oracle
                    [(⟨n.id, n.name, n.ty,
                      n.op.mapOperands (applySub sub)⟩ : Node)]
                    (evalList env oracle done []) =
                    evalList env oracle done [] := by
                  simp only [evalList, hev]
                rw [hW1]
                by_cases hx : n.id = x
                · subst hx
                  rw [if_pos rfl, hWn, hVn, hev]
                · rw [if_neg hx]
          have hB1' : ∀ x ∈ n.id :: seen,
              (∃ m ∈ done ++ [⟨n.id, n.name, n.ty,
                n.op.mapOperands (applySub sub)⟩], m.id = x) ∨
                ∃ e ∈ sub, e.1 = x := by
            intro x hx
            rcases List.mem_cons.mp hx with rfl | hx'
            · exact Or.inl ⟨_, List.mem_append_right _
                (List.mem_singleton.mpr rfl), rfl⟩
            · rcases hB1 x hx' with ⟨m, hm, hmx⟩ | hr
              · exact Or.inl ⟨m, List.mem_append_left _ hm, hmx⟩
              · exact Or.inr hr
          have hB2' : ∀ e ∈ sub, e.1 ∈ n.id :: seen :=
            fun e he => List.mem_cons_of_mem _ (hB2 e he)
          have hB10' : ∀ e ∈ sub, ∀ m ∈ done ++ [⟨n.id, n.name, n.ty,
              n.op.mapOperands (applySub sub)⟩], e.1 ≠ m.id := by
            intro e he m hm
            rcases List.mem_append.mp hm with hm' | hm'
            · exact hB10 e he m hm'
            · have hmn : m = ⟨n.id, n.name, n.ty,
                  n.op.mapOperands (applySub sub)⟩ := List.mem_singleton.mp hm'
              subst hmn
              intro heq
              exact hid (heq ▸ hB2 e he)
          have hB3' : ∀ e ∈ sub, ∃ m ∈ done ++ [⟨n.id, n.name, n.ty,
              n.op.mapOperands (applySub sub)⟩], m.id = e.2 := by
            intro e he
            obtain ⟨m, hm, hme⟩ := hB3 e he
            exact ⟨m, List.mem_append_left _ hm, hme⟩
          have hseeng' : ∀ x ∈ n.id :: seen, ∃ n0 ∈ g, n0.id = x := by
            intro x hx
            rcases List.mem_cons.mp hx with rfl | hx'
            · exact ⟨n, hng, rfl⟩
            · exact hseeng x hx'
          have hdoneP' : ∀ m ∈ done ++ [⟨n.id, n.name, n.ty,
              n.op.mapOperands (applySub sub)⟩],
              (m.id ≤ maxId g ∧ m.id ∈ n.id :: seen ∧
                ∃ n0 ∈ g, n0.id = m.id ∧ n0.ty = m.ty) ∨ maxId g < m.id := by
            intro m hm
            rcases List.mem_append.mp hm with hm' | hm'
            · rcases hdoneP m hm' with ⟨h1, h2, h3⟩ | h
              · exact Or.inl ⟨h1, List.mem_cons_of_mem _ h2, h3⟩
              · exact Or.inr h
            · have hmn : m = ⟨n.id, n.name, n.ty,
                  n.op.mapOperands (applySub sub)⟩ := List.mem_singleton.mp hm'
              subst hmn
              exact Or.inl ⟨hnle, List.mem_cons_self _ _, n, hng, rfl, rfl⟩
          have hdonelt' : ∀ m ∈ done ++ [⟨n.id, n.name, n.ty,
              n.op.mapOperands (applySub sub)⟩], m.id < nid := by
            intro m hm
            rcases List.mem_append.mp hm with hm' | hm'
            · exact hdonelt m hm'
            · have hmn : m = ⟨n.id, n.name, n.ty,
                  n.op.mapOperands (applySub sub)⟩ := List.mem_singleton.mp hm'
              subst hmn
              show n.id < nid
              omega
          have hB12' : ∀ n0 ∈ g, n0.id ∈ n.id :: seen ∨
              ∃ m ∈ rest, m.id = n0.id := by
            intro n0 hn0
            rcases hB12 n0 hn0 with h | ⟨m, hm, hmid⟩
            · exact Or.inl (List.mem_cons_of_mem _ h)
            · rcases List.mem_cons.mp hm with rfl | hm'
              · exact Or.inl (by rw [← hmid]; exact List.mem_cons_self _ _)
              · exact Or.inr ⟨m, hm', hmid⟩
          have hS3' : ∀ x, ¬(∃ m ∈ done ++ [⟨n.id, n.name, n.ty,
              n.op.mapOperands (applySub sub)⟩], m.id = x) →
              lookupVal (evalList env oracle (done ++ [⟨n.id, n.name, n.ty,
                n.op.mapOperands (applySub sub)⟩]) []) x = none := by
            intro x hnx
            have h1 : ¬ ∃ m ∈ done, m.id = x :=
              fun ⟨m, hm, hh⟩ => hnx ⟨m, List.mem_append_left _ hm, hh⟩
            have h2 : n.id ≠ x := fun heq =>
              hnx ⟨⟨n.id, n.name, n.ty, n.op.mapOperands (applySub sub)⟩,
                List.mem_append_right _ (List.mem_singleton.mpr rfl), heq⟩
            rw [hWd x, if_neg h2]
            exact hS3 x h1
          have hS1' : ∀ n0 ∈ g, n0.id ∈ n.id :: seen →
              (¬∃ e ∈ sub, e.1 = n0.id) →
              lookupVal (evalList env oracle (done ++ [⟨n.id, n.name, n.ty,
                n.op.mapOperands (applySub sub)⟩]) []) n0.id =
                lookupVal (evalList env oracle g []) n0.id := by
            intro n0 hn0 hsn hnk
            rw [hWd n0.id]
            by_cases hx : n.id = n0.id
            · rw [if_pos hx, hx]
            · rw [if_neg hx]
              refine hS1 n0 hn0 ?_ hnk
              rcases List.mem_cons.mp hsn with h | h
              · exact absurd h.symm hx
              · exact h
          have hS2' : ∀ e ∈ sub,
              lookupVal (evalList env oracle (done ++ [⟨n.id, n.name, n.ty,
                n.op.mapOperands (applySub sub)⟩]) []) e.2 =
                lookupVal (evalList env oracle g []) e.1 := by
            intro e he
            have h2 : n.id ≠ e.2 := by
              intro heq
              obtain ⟨m, hm, hme⟩ := hB3 e he
              exact hnotdone ⟨m, hm, by rw [hme, ← heq]⟩
            rw [hWd e.2, if_neg h2]
            exact hS2 e he
          exact ih _ sub (n.id :: seen) ret nid ch hwf' hsubg' hB1' hB2'
            hB10' hB3' hseeng' hdoneP' hnidg hdonelt' hB12' hS3' hS1' hS2' hret
      | some Mp =>
          obtain ⟨M, pre⟩ := Mp
          obtain ⟨c0, tM, hmemoN, hneLP, hMne, hallLP, htyM, hsubtM⟩ :=
            decideRewrite_inv hdec
          have hmemoN' : memoGet memo n.id = some c0 := hmemoN
          have hneLP' : n.ty.leafPaths ≠ [] := hneLP
          have hMne' : M ≠ n.id := hMne
          have hallLP' : ∀ p ∈ n.ty.leafPaths,
              contGet c0 p = some ⟨M, pre ++ p⟩ := hallLP
          have hsubtM' : Ty.subtreeTy pre tM = some n.ty := hsubtM
          obtain ⟨vn, vM, n0, hn0g, hn0id, hvn, hvnT, hvM, hvMT, hcore⟩ :=
            rewrite_core hwfg hgty henv horacle hmemoOk hng hmemoN'
              hneLP' hallLP'
          obtain ⟨m, hmdone2, hmid, hmty⟩ := tyOf_some htyM
          have hMle : M ≤ maxId g := by rw [← hn0id]; exact maxId_ge hn0g
          have hmdone : m ∈ done := by
            rcases List.mem_append.mp hmdone2 with h | h
            · exact h
            · exfalso
              have hmn : m = ⟨n.id, n.name, n.ty,
                  n.op.mapOperands (applySub sub)⟩ := List.mem_singleton.mp h
              apply hMne'
              rw [← hmid, hmn]
          have hMsurv : m.id ≤ maxId g ∧ m.id ∈ seen ∧
              ∃ n1 ∈ g, n1.id = m.id ∧ n1.ty = m.ty := by
            rcases hdoneP m hmdone with h | h
            · exact h
            · exfalso
              rw [hmid] at h
              omega
          obtain ⟨_, hmseen, n1, hn1g, hn1id, hn1ty⟩ := hMsurv
          have hn1n0 : n1 = n0 := wf_id_unique hwfg hn1g hn0g
            (by rw [hn1id, hmid, ← hn0id])
          have htM : tM = n0.ty := by rw [← hmty, ← hn1ty, hn1n0]
          have hsubty0 : Ty.subtreeTy pre n0.ty = some n.ty := htM ▸ hsubtM'
          have hsub_pre : Value.sub pre vM = some vn := hcore hsubty0
          have hMseen : M ∈ seen := hmid ▸ hmseen
          have hMdone : ∃ m2 ∈ done, m2.id = M := ⟨m, hmdone, hmid⟩
          have hWM : lookupVal (evalList env oracle done []) M = some vM := by
            have hkey : ¬ ∃ e ∈ sub, e.1 = n0.id := by
              rintro ⟨e, he, hee⟩
              exact hB10 e he m hmdone (by rw [hee, hn0id, ← hmid])
            have hres := hS1 n0 hn0g (by rw [hn0id]; exact hMseen) hkey
            rw [hn0id] at hres
            rw [hres, hvM]
          have hseeng' : ∀ x ∈ n.id :: seen, ∃ n2 ∈ g, n2.id = x := by
            intro x hx
            rcases List.mem_cons.mp hx with rfl | hx'
            · exact ⟨n, hng, rfl⟩
            · exact hseeng x hx'
          have hB12' : ∀ n2 ∈ g, n2.id ∈ n.id :: seen ∨
              ∃ m2 ∈ rest, m2.id = n2.id := by
            intro n2 hn2
            rcases hB12 n2 hn2 with h | ⟨m2, hm2, hm2id⟩
            · exact Or.inl (List.mem_cons_of_mem _ h)
            · rcases List.mem_cons.mp hm2 with rfl | hm2'
              · exact Or.inl (by rw [← hm2id]; exact List.mem_cons_self _ _)
              · exact Or.inr ⟨m2, hm2', hm2id⟩
          by_cases hpre : pre = []
          · have hrw : rewriteAll memo done (n :: rest) sub ret nid ch =
                rewriteAll memo done rest ((n.id, M) :: sub) ret nid true := by
              simp only [rewriteAll, hdec]
              rw [if_pos hpre]
            rw [hrw]
            have hvMn : vM = vn := by
              have hsp := hsub_pre
              rw [hpre] at hsp
              exact Option.some.inj hsp
            have hB1' : ∀ x ∈ n.id :: seen, (∃ m2 ∈ done, m2.id = x) ∨
                ∃ e ∈ (n.id, M) :: sub, e.1 = x := by
              intro x hx
              rcases List.mem_cons.mp hx with rfl | hx'
              · exact Or.inr ⟨(n.id, M), List.mem_cons_self _ _, rfl⟩
              · rcases hB1 x hx' with h | ⟨e, he, hex⟩
                · exact Or.inl h
                · exact Or.inr ⟨e, List.mem_cons_of_mem _ he, hex⟩
            have hB2' : ∀ e ∈ (n.id, M) :: sub, e.1 ∈ n.id :: seen := by
              intro e he
              rcases List.mem_cons.mp he with rfl | he'
              · exact List.mem_cons_self _ _
              · exact List.mem_cons_of_mem _ (hB2 e he')
            have hB10' : ∀ e ∈ (n.id, M) :: sub, ∀ m2 ∈ done, e.1 ≠ m2.id := by
              intro e he m2 hm2
              rcases List.mem_cons.mp he with rfl | he'
              · intro heq
                exact hnotdone ⟨m2, hm2, heq.symm⟩
              · exact hB10 e he' m2 hm2
            have hB3' : ∀ e ∈ (n.id, M) :: sub, ∃ m2 ∈ done, m2.id = e.2 := by
              intro e he
              rcases List.mem_cons.mp he with rfl | he'
              · exact hMdone
              · exact hB3 e he'
            have hdoneP' : ∀ m2 ∈ done,
                (m2.id ≤ maxId g ∧ m2.id ∈ n.id :: seen ∧
                  ∃ n2 ∈ g, n2.id = m2.id ∧ n2.ty = m2.ty) ∨
                  maxId g < m2.id := by
              intro m2 hm2
              rcases hdoneP m2 hm2 with ⟨h1, h2, h3⟩ | h
              · exact Or.inl ⟨h1, List.mem_cons_of_mem _ h2, h3⟩
              · exact Or.inr h
            have hS1' : ∀ n2 ∈ g, n2.id ∈ n.id :: seen →
                (¬∃ e ∈ (n.id, M) :: sub, e.1 = n2.id) →
                lookupVal (evalList env oracle done []) n2.id =
                  lookupVal (evalList env oracle g []) n2.id := by
              intro n2 hn2 hsn hnk
              have hx : n.id ≠ n2.id :=
                fun heq => hnk ⟨(n.id, M), List.mem_cons_self _ _, heq⟩
              refine hS1 n2 hn2 ?_ ?_
              · rcases List.mem_cons.mp hsn with h | h
                · exact absurd h.symm hx
                · exact h
              · rintro ⟨e, he, hee⟩
                exact hnk ⟨e, List.mem_cons_of_mem _ he, hee⟩
            have hS2' : ∀ e ∈ (n.id, M) :: sub,
                lookupVal (evalList env oracle done []) e.2 =
                  lookupVal (evalList env oracle g []) e.1 := by
              intro e he
              rcases List.mem_cons.mp he with rfl | he'
              · show lookupVal (evalList env oracle done []) M =
                  lookupVal (evalList env oracle g []) n.id
                rw [hWM, hvn, hvMn]
              · exact hS2 e he'
            exact ih done ((n.id, M) :: sub) (n.id :: seen) ret nid true hwf'
              hsubg' hB1' hB2' hB10' hB3' hseeng' hdoneP' hnidg hdonelt hB12'
              hS3 hS1' hS2' hret
          · have hrw : rewriteAll memo done (n :: rest) sub ret nid ch =
                rewriteAll memo
                  (done ++ [⟨nid, n.name, n.ty, .chainIndex M pre⟩])
                  rest ((n.id, nid) :: sub) ret (nid + 1) true := by
              simp only [rewriteAll, hdec]
              rw [if_neg hpre]
            rw [hrw]
            have hWnid : lookupVal (evalList env oracle done []) nid = none := by
              refine hS3 nid ?_
              rintro ⟨m2, hm2, hm2id⟩
              exact absurd hm2id (Nat.ne_of_lt (hdonelt m2 hm2))
            have hevc : evalNode (lookupVal (evalList env oracle done []))
                env oracle ⟨nid, n.name, n.ty, .chainIndex M pre⟩ =
                some vn := by
              rw [evalNode_eq_some_iff]
              refine ⟨?_, hvnT⟩
              show (lookupVal (evalList env oracle done []) M).bind
                (Value.sub pre) = some vn
              rw [hWM]
              simp only [Option.some_bind]
              exact hsub_pre
            have hWc : ∀ x, lookupVal (evalList env oracle
                (done ++ [⟨nid, n.name, n.ty, .chainIndex M pre⟩]) []) x =
                if nid = x then some vn
                else lookupVal (evalList env oracle done []) x := by
              intro x
              rw [evalList_append]
              have hW1 : evalList env oracle
                  [(⟨nid, n.name, n.ty, .chainIndex M pre⟩ : Node)]
                  (evalList env oracle done []) =
                  evalList env oracle done [] ++ [(nid, vn)] := by
                simp only [evalList, hevc]
              rw [hW1]
              by_cases hx : nid = x
              · subst hx
                rw [if_pos rfl, lookupVal_snoc_none _ _ _ hWnid]
              · rw [if_neg hx, lookupVal_snoc_ne _ _ _ _ hx]
            have hB1' : ∀ x ∈ n.id :: seen,
                (∃ m2 ∈ done ++ [⟨nid, n.name, n.ty, .chainIndex M pre⟩],
                  m2.id = x) ∨ ∃ e ∈ (n.id, nid) :: sub, e.1 = x := by
              intro x hx
              rcases List.mem_cons.mp hx with rfl | hx'
              · exact Or.inr ⟨(n.id, nid), List.mem_cons_self _ _, rfl⟩
              · rcases hB1 x hx' with ⟨m2, hm2, hm2x⟩ | ⟨e, he, hex⟩
                · exact Or.inl ⟨m2, List.mem_append_left _ hm2, hm2x⟩
                · exact Or.inr ⟨e, List.mem_cons_of_mem _ he, hex⟩
            have hB2' : ∀ e ∈ (n.id, nid) :: sub, e.1 ∈ n.id :: seen := by
              intro e he
              rcases List.mem_cons.mp he with rfl | he'
              · exact List.mem_cons_self _ _
              · exact List.mem_cons_of_mem _ (hB2 e he')
            have hB10' : ∀ e ∈ (n.id, nid) :: sub,
                ∀ m2 ∈ done ++ [⟨nid, n.name, n.ty, .chainIndex M pre⟩],
                e.1 ≠ m2.id := by
              intro e he m2 hm2
              rcases List.mem_cons.mp he with rfl | he'
              · rcases List.mem_append.mp hm2 with hm2' | hm2'
                · intro heq
                  exact hnotdone ⟨m2, hm2', heq.symm⟩
                · have hmc : m2 = ⟨nid, n.name, n.ty, .chainIndex M pre⟩ :=
                    List.mem_singleton.mp hm2'
                  subst hmc
                  intro heq
                  have heq2 : n.id = nid := heq
                  omega
              · rcases List.mem_append.mp hm2 with hm2' | hm2'
                · exact hB10 e he' m2 hm2'
                · have hmc : m2 = ⟨nid, n.name, n.ty, .chainIndex M pre⟩ :=
                    List.mem_singleton.mp hm2'
                  subst hmc
                  intro heq
                  have heq2 : e.1 = nid := heq
                  obtain ⟨n2, hn2g, hn2id⟩ := hseeng e.1 (hB2 e he')
                  have hle2 := maxId_ge hn2g
                  omega
            have hB3' : ∀ e ∈ (n.id, nid) :: sub,
                ∃ m2 ∈ done ++ [⟨nid, n.name, n.ty, .chainIndex M pre⟩],
                m2.id = e.2 := by
              intro e he
              rcases List.mem_cons.mp he with rfl | he'
              · exact ⟨⟨nid, n.name, n.ty, .chainIndex M pre⟩,
                  List.mem_append_right _ (List.mem_singleton.mpr rfl), rfl⟩
              · obtain ⟨m2, hm2, hm2e⟩ := hB3 e he'
                exact ⟨m2, List.mem_append_left _ hm2, hm2e⟩
            have hdoneP' : ∀ m2 ∈ done ++
                [⟨nid, n.name, n.ty, .chainIndex M pre⟩],
                (m2.id ≤ maxId g ∧ m2.id ∈ n.id :: seen ∧
                  ∃ n2 ∈ g, n2.id = m2.id ∧ n2.ty = m2.ty) ∨
                  maxId g < m2.id := by
              intro m2 hm2
              rcases List.mem_append.mp hm2 with hm2' | hm2'
              · rcases hdoneP m2 hm2' with ⟨h1, h2, h3⟩ | h
                · exact Or.inl ⟨h1, List.mem_cons_of_mem _ h2, h3⟩
                · exact Or.inr h
              · have hmc : m2 = ⟨nid, n.name, n.ty, .chainIndex M pre⟩ :=
                  List.mem_singleton.mp hm2'
                subst hmc
                exact Or.inr hnidg
            have hnidg' : maxId g < nid + 1 := by omega
            have hdonelt' : ∀ m2 ∈ done ++
                [⟨nid, n.name, n.ty, .chainIndex M pre⟩], m2.id < nid + 1 := by
              intro m2 hm2
              rcases List.mem_append.mp hm2 with hm2' | hm2'
              · have := hdonelt m2 hm2'
                omega
              · have hmc : m2 = ⟨nid, n.name, n.ty, .chainIndex M pre⟩ :=
                  List.mem_singleton.mp hm2'
                subst hmc
                show nid < nid + 1
                omega
            have hS3' : ∀ x, ¬(∃ m2 ∈ done ++
                [⟨nid, n.name, n.ty, .chainIndex M pre⟩], m2.id = x) →
                lookupVal (evalList env oracle (done ++
                  [⟨nid, n.name, n.ty, .chainIndex M pre⟩]) []) x = none := by
              intro x hnx
              have h1 : ¬ ∃ m2 ∈ done, m2.id = x :=
                fun ⟨m2, hm2, hh⟩ => hnx ⟨m2, List.mem_append_left _ hm2, hh⟩
              have h2 : nid ≠ x := fun heq =>
                hnx ⟨⟨nid, n.name, n.ty, .chainIndex M pre⟩,
                  List.mem_append_right _ (List.mem_singleton.mpr rfl), heq⟩
              rw [hWc x, if_neg h2]
              exact hS3 x h1
            have hS1' : ∀ n2 ∈ g, n2.id ∈ n.id :: seen →
                (¬∃ e ∈ (n.id, nid) :: sub, e.1 = n2.id) →
                lookupVal (evalList env oracle (done ++
                  [⟨nid, n.name, n.ty, .chainIndex M pre⟩]) []) n2.id =
                  lookupVal (evalList env oracle g []) n2.id := by
              intro n2 hn2 hsn hnk
              have hx : n.id ≠ n2.id :=
                fun heq => hnk ⟨(n.id, nid), List.mem_cons_self _ _, heq⟩
              have hnidne : nid ≠ n2.id := by
                have := maxId_ge hn2
                omega
              rw [hWc n2.id, if_neg hnidne]
              refine hS1 n2 hn2 ?_ ?_
              · rcases List.mem_cons.mp hsn with h | h
                · exact absurd h.symm hx
                · exact h
              · rintro ⟨e, he, hee⟩
                exact hnk ⟨e, List.mem_cons_of_mem _ he, hee⟩
            have hS2' : ∀ e ∈ (n.id, nid) :: sub,
                lookupVal (evalList env oracle (done ++
                  [⟨nid, n.name, n.ty, .chainIndex M pre⟩]) []) e.2 =
                  lookupVal (evalList env oracle g []) e.1 := by
              intro e he
              rcases List.mem_cons.mp he with rfl | he'
              · show lookupVal (evalList env oracle (done ++
                  [⟨nid, n.name, n.ty, .chainIndex M pre⟩]) []) nid =
                  lookupVal (evalList env oracle g []) n.id
                rw [hWc nid, if_pos rfl, hvn]
              · have hne2 : nid ≠ e.2 := by
                  obtain ⟨m2, hm2, hm2e⟩ := hB3 e he'
                  have := hdonelt m2 hm2
                  omega
                rw [hWc e.2, if_neg hne2]
                exact hS2 e he'
            exact ih (done ++ [⟨nid, n.name, n.ty, .chainIndex M pre⟩])
              ((n.id, nid) :: sub) (n.id :: seen) ret (nid + 1) true hwf'
              hsubg' hB1' hB2' hB10' hB3' hseeng' hdoneP' hnidg' hdonelt'
              hB12' hS3' hS1' hS2' hret

/-- C1: Soundness of the pass. For every well-formed, well-typed node graph
whose return id names one of its nodes, every admissible parameter
valuation and every admissible opaque-node semantics, the function computed
by the graph after `DataflowSimplificationPass` (modelled by `runPass`)
agrees exactly with the function computed before the pass. -/
theorem pass_soundness (f : Func) (b : Bool) (f2 : Func)
    (env : Nat → Value) (oracle : Nat → List Value → Value)
    (hwf : wf f.nodes = true)
    (hret : ∃ n0 ∈ f.nodes, n0.id = f.ret)
    (henv : envOk f.nodes env) (horacle : oracleOk f.nodes oracle)
    (hrun : runPass f = Except.ok (b, f2)) :
    funcEval f2 env oracle = funcEval f env oracle := by
  simp only [runPass] at hrun
  split at hrun
  · exact Except.noConfusion hrun
  rename_i memo han
  have hpair := Except.ok.inj hrun
  have hf2 : f2 = ⟨(rewriteAll memo [] f.nodes [] f.ret
      (maxId f.nodes + 1) false).1,
      (rewriteAll memo [] f.nodes [] f.ret (maxId f.nodes + 1) false).2.1⟩ :=
    (congrArg Prod.snd hpair).symm
  have hgty : ∀ k ∈ f.nodes, typeOk f.nodes k = true :=
    analyzeList_typeOk f.nodes f.nodes [] memo han
  have hmemoOk := @analyze_sound f.nodes env oracle memo hwf hgty henv horacle han
  have main := rewriteAll_sound hwf hgty henv horacle hmemoOk f.nodes [] []
    [] f.ret (maxId f.nodes + 1) false hwf (fun _ hm => hm)
    (fun x hx => absurd hx (List.not_mem_nil x))
    (fun e he => absurd he (List.not_mem_nil e))
    (fun e he => absurd he (List.not_mem_nil e))
    (fun e he => absurd he (List.not_mem_nil e))
    (fun x hx => absurd hx (List.not_mem_nil x))
    (fun m hm => absurd hm (List.not_mem_nil m))
    (Nat.lt_succ_self _)
    (fun m hm => absurd hm (List.not_mem_nil m))
    (fun n0 hn0 => Or.inr ⟨n0, hn0, rfl⟩)
    (fun x _ => rfl)
    (fun n0 _ h => absurd h (List.not_mem_nil n0.id))
    (fun e he => absurd he (List.not_mem_nil e))
    hret
  rw [hf2]
  exact main

theorem pass_soundness_witness :
    funcEval ⟨[s1x, s1y, s1t, ⟨4, "w", Ty.bits 32, Op.otherOp [1]⟩], 4⟩
        (fun _ => Value.bits 0) (fun _ _ => Value.bits 0) =
      funcEval scenario1 (fun _ => Value.bits 0) (fun _ _ => Value.bits 0) :=
  pass_soundness scenario1 true
    ⟨[s1x, s1y, s1t, ⟨4, "w", Ty.bits 32, Op.otherOp [1]⟩], 4⟩
    (fun _ => Value.bits 0) (fun _ _ => Value.bits 0)
    (by decide) (by decide)
    (by
      intro n hn hp
      simp only [scenario1, List.mem_cons, List.not_mem_nil, or_false] at hn
      rcases hn with rfl | rfl | rfl | rfl | rfl <;>
        first
        | exact Op.noConfusion hp
        | rfl)
    (by
      intro n hn xs vs hop
      simp only [scenario1, List.mem_cons, List.not_mem_nil, or_false] at hn
      rcases hn with rfl | rfl | rfl | rfl | rfl <;>
        first
        | exact Op.noConfusion hop
        | rfl)
    (by decide)

/-- C2 (amended): running the pass twice in sequence can change the graph
on the second run — there is a well-formed graph on which the first run
rewrites and the second run rewrites again, reporting `true` as its
changed flag and producing a different function; one run of the pass need
not reach a fixed point. -/
theorem pass_second_run_may_change :
    ∃ (f f1 f2 : Func), wf f.nodes = true ∧
      runPass f = Except.ok (true, f1) ∧
      runPass f1 = Except.ok (true, f2) ∧ f1 ≠ f2 :=
  ⟨ceGraph, ceOnce, ceTwice, by decide, by decide, by decide, by decide⟩

/-- C2 (counterexample): on the well-formed graph `ceGraph` the first run
rewrites (redirecting `i = identity(k)` to the literal `k`), and the
second run — whose analysis now sees a statically known literal index on
`r = array_index(A, ·)` — rewrites again: it returns `true`, not `false`,
as its changed flag and changes the function. -/
theorem pass_not_idempotent :
    wf ceGraph.nodes = true ∧
    runPass ceGraph = Except.ok (true, ceOnce) ∧
    runPass ceOnce = Except.ok (true, ceTwice) ∧
    ceOnce ≠ ceTwice := by decide

end XlsDataflow
